import Mathlib

/-!
Verification of the Kilimall catalog-discovery scrapers
(`kilimall_scraper.py`, `kilimall_scraper_optimized.py`).

Strings are modelled as lists of Unicode scalar characters (`Str`).
Python library behaviour (`urllib.parse`, `json`, `re`, `BeautifulSoup`
with the `html.parser` builder) is embedded as executable Lean
functions, faithful to CPython 3.11 on the inputs exercised here;
modelling notes appear next to each definition.
-/

namespace Jakan

/-- Strings as character lists (Unicode scalars, like Python `str`). -/
abbrev Str := List Char

/-- Convert a Lean string literal to the model representation. -/
def ofS (s : String) : Str := s.data

example : ofS "ab" = ['a', 'b'] := by decide

/-! ## Basic string operations (Python `str` semantics) -/

/-- Python `str.isspace` / whitespace stripped by `str.strip()`.
Covers the Unicode whitespace code points recognised by CPython. -/
def pyIsSpace (c : Char) : Bool :=
  [9, 10, 11, 12, 13, 28, 29, 30, 31, 32, 133, 160, 0x1680,
   0x2000, 0x2001, 0x2002, 0x2003, 0x2004, 0x2005, 0x2006, 0x2007,
   0x2008, 0x2009, 0x200A, 0x2028, 0x2029, 0x202F, 0x205F, 0x3000].contains c.toNat

/-- Python `s.lstrip()` (no argument: strip whitespace on the left). -/
def pyLstrip (s : Str) : Str := s.dropWhile pyIsSpace

/-- Python `s.rstrip()` (whitespace on the right). -/
def pyRstrip (s : Str) : Str := (s.reverse.dropWhile pyIsSpace).reverse

/-- Python `s.strip()` (whitespace on both sides). -/
def pyStrip (s : Str) : Str := pyRstrip (pyLstrip s)

/-- Python `s.strip(chars)`: strip any of the given characters from both ends. -/
def pyStripChars (chars : Str) (s : Str) : Str :=
  ((s.dropWhile chars.contains).reverse.dropWhile chars.contains).reverse

/-- Python `s.rstrip("/")` as used by `canonical_product_url`:
removes ALL trailing slashes. -/
def rstripSlashes (s : Str) : Str := (s.reverse.dropWhile (· = '/')).reverse

/-- ASCII lowercase (Python `str.lower` restricted to ASCII; the only
strings lowered in the model are URL schemes, which are ASCII). -/
def toLowerS (s : Str) : Str := s.map Char.toLower

/-- The part of a string after its last `/` (the whole string when it
has no `/`). -/
def lastSegment (s : Str) : Str := (s.reverse.takeWhile (· ≠ '/')).reverse

/-- The prefix of a string up to and including its last `/`. -/
def upToLastSlash (s : Str) : Str := (s.reverse.dropWhile (· ≠ '/')).reverse

/-- Python `s.split(ch, 1)` under the guarantee that `ch` occurs:
the part before the first `ch` and the part after it. -/
def splitOnceAt (ch : Char) (s : Str) : Str × Str :=
  (s.takeWhile (· ≠ ch), (s.dropWhile (· ≠ ch)).drop 1)

/-! ## `urllib.parse` model (CPython 3.11)

`urlsplit` lstrips C0-control/space characters, deletes every tab, CR
and LF, extracts a scheme at the first `:` when the prefix is a valid
scheme, splits `//netloc` at the first of `/?#`, then splits fragment
(first `#`) and query (first `?`).  `urlparse` additionally splits
`;params` off the last path segment for schemes in `uses_params`.
CPython raises `ValueError` for netlocs with brackets that fail IPv6
validation and for some non-ASCII netlocs (NFKC check); the model
conservatively returns `none` for any bracket and any non-ASCII
netloc — no claim below turns on such hosts. -/

structure SplitResult where
  scheme : Str
  netloc : Str
  path : Str
  query : Str
  fragment : Str
deriving DecidableEq, Repr

structure ParseResult where
  scheme : Str
  netloc : Str
  path : Str
  params : Str
  query : Str
  fragment : Str
deriving DecidableEq, Repr

/-- Characters legal in a URL scheme (CPython `scheme_chars`). -/
def schemeChars : Str :=
  ofS "abcdefghijklmnopqrstuvwxyzABCDEFGHIJKLMNOPQRSTUVWXYZ0123456789+-."

/-- CPython `uses_params`. -/
def uses_params : List Str :=
  [[], ofS "ftp", ofS "hdl", ofS "prospero", ofS "http", ofS "imap",
   ofS "https", ofS "shttp", ofS "rtsp", ofS "rtspu", ofS "sip", ofS "sips",
   ofS "mms", ofS "sftp", ofS "tel"]

/-- CPython `uses_netloc`. -/
def uses_netloc : List Str :=
  [[], ofS "ftp", ofS "http", ofS "gopher", ofS "nntp", ofS "telnet",
   ofS "imap", ofS "wais", ofS "file", ofS "mms", ofS "https", ofS "shttp",
   ofS "snews", ofS "prospero", ofS "rtsp", ofS "rtspu", ofS "rsync",
   ofS "svn", ofS "svn+ssh", ofS "sftp", ofS "nfs", ofS "git", ofS "git+ssh",
   ofS "ws", ofS "wss"]

/-- CPython `uses_relative`. -/
def uses_relative : List Str :=
  [[], ofS "ftp", ofS "http", ofS "gopher", ofS "nntp", ofS "imap",
   ofS "wais", ofS "file", ofS "https", ofS "shttp", ofS "mms",
   ofS "prospero", ofS "rtsp", ofS "rtspu", ofS "sftp",
   ofS "svn", ofS "svn+ssh", ofS "ws", ofS "wss"]

/-- Delete every tab, CR and LF (CPython `_UNSAFE_URL_BYTES_TO_REMOVE`). -/
def removeUnsafe (s : Str) : Str :=
  s.filter fun c => ¬(c = '\t' ∨ c = '\r' ∨ c = '\n')

/-- The sanitisation pass of `urlsplit`: lstrip C0-control/space, then
delete tab/CR/LF everywhere. -/
def urlClean (s : Str) : Str :=
  removeUnsafe (s.dropWhile fun c => c.toNat ≤ 32)

/-- Scheme extraction of `urlsplit`: at the first `:`, when the prefix
is nonempty, starts with an ASCII letter and uses only scheme
characters, the (lowercased) prefix becomes the scheme. -/
def schemeSplit (default : Str) (url : Str) : Str × Str :=
  match url.findIdx? (· = ':') with
  | some i =>
    if 0 < i ∧ (url.headD ' ').isAlpha ∧ (url.take i).all (schemeChars.contains ·) then
      (toLowerS (url.take i), url.drop (i + 1))
    else (default, url)
  | none => (default, url)

/-- A netloc is delimited by the first `/`, `?` or `#`. -/
def netlocDelim (c : Char) : Bool := c = '/' ∨ c = '?' ∨ c = '#'

/-- The `//netloc` stage of `urlsplit`: netloc and remainder. -/
def splitNetlocPart (url : Str) : Str × Str :=
  if url.take 2 = ofS "//" then
    ((url.drop 2).takeWhile (fun c => ¬ netlocDelim c),
     (url.drop 2).dropWhile (fun c => ¬ netlocDelim c))
  else ([], url)

/-- The fragment stage of `urlsplit`: remainder and fragment. -/
def splitFragPart (url : Str) : Str × Str :=
  if url.contains '#' then splitOnceAt '#' url else (url, [])

/-- The query stage of `urlsplit`: path and query. -/
def splitQueryPart (url : Str) : Str × Str :=
  if url.contains '?' then splitOnceAt '?' url else (url, [])

/-- CPython `urlsplit(url, scheme=default)`; `none` models `ValueError`. -/
def urlsplitD (default : Str) (url0 : Str) : Option SplitResult :=
  let sp := schemeSplit default (urlClean url0)
  let nl := splitNetlocPart sp.2
  if nl.1.contains '[' ∨ nl.1.contains ']' then none
  else if ¬ nl.1.all (fun c => c.toNat < 128) then none
  else
    let fq := splitFragPart nl.2
    let pq := splitQueryPart fq.1
    some ⟨sp.1, nl.1, pq.1, pq.2, fq.2⟩

/-- CPython `_splitparams`: when the path has a `/`, split at the first
`;` of the last segment (CPython: `url.find(';', url.rfind('/'))`);
otherwise at the first `;` of the whole string.  No `;` there: no split. -/
def splitparamsF (url : Str) : Str × Str :=
  if url.contains '/' then
    let seg := lastSegment url
    if seg.contains ';' then
      (upToLastSlash url ++ seg.takeWhile (· ≠ ';'), (seg.dropWhile (· ≠ ';')).drop 1)
    else (url, [])
  else
    if url.contains ';' then splitOnceAt ';' url
    else (url, [])

/-- CPython `urlparse(url, scheme=default)`. -/
def urlparseD (default : Str) (url : Str) : Option ParseResult :=
  (urlsplitD default url).map fun r =>
    if uses_params.contains r.scheme ∧ r.path.contains ';' then
      let sp := splitparamsF r.path
      ⟨r.scheme, r.netloc, sp.1, sp.2, r.query, r.fragment⟩
    else ⟨r.scheme, r.netloc, r.path, [], r.query, r.fragment⟩

/-- CPython `urlparse(url)` with the default empty scheme. -/
def urlparseF (url : Str) : Option ParseResult := urlparseD [] url

/-- The leading-slash completion performed by `urlunsplit` when the
URL gets a netloc. -/
def addSlash (s : Str) : Str :=
  if s ≠ [] ∧ s.head? ≠ some '/' then '/' :: s else s

/-- CPython `urlunsplit`. -/
def urlunsplitF (scheme netloc url query fragment : Str) : Str :=
  let url :=
    if netloc ≠ [] ∨ (scheme ≠ [] ∧ uses_netloc.contains scheme ∧ url.take 2 ≠ ofS "//") then
      ofS "//" ++ netloc ++ addSlash url
    else url
  let url := if scheme ≠ [] then scheme ++ ':' :: url else url
  let url := if query ≠ [] then url ++ '?' :: query else url
  if fragment ≠ [] then url ++ '#' :: fragment else url

/-- CPython `urlunparse`. -/
def urlunparseF (scheme netloc url params query fragment : Str) : Str :=
  urlunsplitF scheme netloc (if params ≠ [] then url ++ ';' :: params else url)
    query fragment

/-! ## Canonicalizer (`kilimall_scraper.py` lines 175–185) -/

/-- The fixed storefront host used by `canonical_product_url`. -/
def kilimallHost : Str := ofS "www.kilimall.co.ke"

/-- `canonical_product_url`: keep scheme (default "https"), force the
host, strip ALL trailing slashes from the path, drop params, query and
fragment.  `none` models the `ValueError` that `urlparse` can raise. -/
def canonical_product_url (url : Str) : Option Str :=
  (urlparseF url).map fun p =>
    urlunparseF (if p.scheme = [] then ofS "https" else p.scheme) kilimallHost
      (rstripSlashes p.path) [] [] []

/-- The path-segment marker of `extract_listing_id`. -/
def listingMarker : Str := ofS "/listing/"

/-- Maximal leading run of ASCII digits (regex `\d+`, ASCII digits;
the URLs handled contain no non-ASCII digits). -/
def takeDigits : Str → Str
  | [] => []
  | c :: t => if c.isDigit then c :: takeDigits t else []

/-- Whether a string starts with an ASCII digit. -/
def headIsDigit (s : Str) : Bool :=
  match s with
  | c :: _ => c.isDigit
  | [] => false

/-- `re.search(r"/listing/(\d+)", path)`: the first position where the
marker is followed by at least one digit; returns the digit group. -/
def fmListing : Str → Option Str
  | [] => none
  | c :: t =>
    if listingMarker.isPrefixOf (c :: t) ∧ headIsDigit ((c :: t).drop 9)
    then some (takeDigits ((c :: t).drop 9))
    else fmListing t

/-- `extract_listing_id`: the digits after `/listing/` in the parsed
path, or the empty string when there is no match. -/
def extract_listing_id (url : Str) : Option Str :=
  (urlparseF url).map fun p => (fmListing p.path).getD []

example : canonical_product_url (ofS "https://www.kilimall.co.ke/listing/1001?x=1#f")
    = some (ofS "https://www.kilimall.co.ke/listing/1001") := by decide

example : canonical_product_url (ofS "https://h/a//")
    = some (ofS "https://www.kilimall.co.ke/a") := by decide

example : canonical_product_url (ofS "http://evil.com/listing/1")
    = some (ofS "http://www.kilimall.co.ke/listing/1") := by decide

example : canonical_product_url (ofS "/x;y/")
    = some (ofS "https://www.kilimall.co.ke/x;y") := by decide

example : canonical_product_url (ofS "https://www.kilimall.co.ke/x;y")
    = some (ofS "https://www.kilimall.co.ke/x") := by decide

example : extract_listing_id (ofS "listing/123") = some [] := by decide

example : extract_listing_id (ofS "https://www.kilimall.co.ke/listing/1001433571-abc")
    = some (ofS "1001433571") := by decide

/-! ## List helper lemmas -/

theorem contains_eq_decide (l : Str) (a : Char) : l.contains a = decide (a ∈ l) := by
  by_cases h : a ∈ l
  · simp [h, List.elem_iff.mpr h, List.contains]
  · simp only [h, decide_eq_false_iff_not, not_false_iff]
    by_contra hc
    exact h (List.elem_iff.mp (by
      revert hc
      simp [List.contains]))

theorem contains_false_of (l : Str) (a : Char) (h : a ∉ l) : l.contains a = false := by
  simp [contains_eq_decide, h]

theorem findIdx_colon_append (s r : Str) (h : ∀ c ∈ s, c ≠ ':') :
    (s ++ ':' :: r).findIdx? (· = ':') = some s.length := by
  induction s with
  | nil => simp [List.findIdx?_cons]
  | cons c t ih =>
    have hc : ¬(c = ':') := h c (List.mem_cons_self _ _)
    simp only [List.cons_append, List.findIdx?_cons, decide_eq_true_eq]
    rw [if_neg hc, List.findIdx?_succ,
      ih (fun d hd => h d (List.mem_cons_of_mem _ hd))]
    simp [Nat.add_comm]

theorem takeWhile_append_all {p : Char → Bool} {a : Str} (b : Str)
    (h : ∀ c ∈ a, p c) : (a ++ b).takeWhile p = a ++ b.takeWhile p := by
  induction a with
  | nil => simp
  | cons c t ih =>
    simp only [List.cons_append, List.takeWhile_cons,
      h c (List.mem_cons_self _ _), if_true]
    rw [ih (fun d hd => h d (List.mem_cons_of_mem _ hd))]

theorem dropWhile_append_all {p : Char → Bool} {a : Str} (b : Str)
    (h : ∀ c ∈ a, p c) : (a ++ b).dropWhile p = b.dropWhile p := by
  induction a with
  | nil => simp
  | cons c t ih =>
    simp only [List.cons_append, List.dropWhile_cons,
      h c (List.mem_cons_self _ _), if_true]
    exact ih (fun d hd => h d (List.mem_cons_of_mem _ hd))

theorem dropWhile_eq_self_of_head {p : Char → Bool} {l : Str} {c : Char}
    (hh : l.head? = some c) (hc : ¬ p c) : l.dropWhile p = l := by
  cases l with
  | nil => simp at hh
  | cons x t =>
    obtain rfl : x = c := by simpa using hh
    simp [List.dropWhile_cons, hc]

theorem takeWhile_eq_nil_of_head {p : Char → Bool} {l : Str} {c : Char}
    (hh : l.head? = some c) (hc : ¬ p c) : l.takeWhile p = [] := by
  cases l with
  | nil => rfl
  | cons x t =>
    obtain rfl : x = c := by simpa using hh
    simp [List.takeWhile_cons, hc]

theorem headD_append_of_ne_nil {a : Str} (b : Str) (d : Char) (h : a ≠ []) :
    (a ++ b).headD d = a.headD d := by
  cases a with
  | nil => exact absurd rfl h
  | cons c t => rfl

theorem head?_append_of_ne_nil {a : Str} (b : Str) (h : a ≠ []) :
    (a ++ b).head? = a.head? := by
  cases a with
  | nil => exact absurd rfl h
  | cons c t => rfl

theorem mem_of_sublist {a l : Str} {c : Char} (hs : a.Sublist l) (hc : c ∈ a) : c ∈ l :=
  hs.subset hc

/-- Splitting a list at and including its last `/`. -/
theorem upToLastSlash_append_lastSegment (s : Str) :
    upToLastSlash s ++ lastSegment s = s := by
  unfold upToLastSlash lastSegment
  rw [← List.reverse_append, List.takeWhile_append_dropWhile, List.reverse_reverse]

theorem lastSegment_no_slash (s : Str) : ∀ c ∈ lastSegment s, c ≠ '/' := by
  intro c hc
  unfold lastSegment at hc
  rw [List.mem_reverse] at hc
  simpa using List.mem_takeWhile_imp hc

theorem upToLastSlash_sublist (s : Str) : (upToLastSlash s).Sublist s := by
  unfold upToLastSlash
  have h0 : (List.dropWhile (· ≠ '/') s.reverse).Sublist s.reverse := by
    apply List.dropWhile_sublist
  have h := h0.reverse
  simpa using h

theorem lastSegment_sublist (s : Str) : (lastSegment s).Sublist s := by
  unfold lastSegment
  have h0 : (List.takeWhile (· ≠ '/') s.reverse).Sublist s.reverse := by
    apply List.takeWhile_sublist
  have h := h0.reverse
  simpa using h

/-! ## Well-formedness facts about parse results -/

/-- The scheme component of a canonicalized URL: nonempty, made of
scheme characters, already lowercased, starting with an ASCII letter. -/
abbrev SchemeOK (s : Str) : Prop :=
  s ≠ [] ∧ (∀ c ∈ s, c ∈ schemeChars) ∧ toLowerS s = s ∧ (s.headD ' ').isAlpha

/-- A parse-result path contains no split delimiters or unsafe bytes. -/
abbrev PathOK (x : Str) : Prop :=
  ∀ c ∈ x, c ≠ '#' ∧ c ≠ '?' ∧ c ≠ '\t' ∧ c ≠ '\r' ∧ c ≠ '\n'

theorem schemeChars_closed :
    ∀ c ∈ schemeChars, Char.toLower c ∈ schemeChars ∧
      Char.toLower (Char.toLower c) = Char.toLower c ∧
      32 < c.toNat ∧ c ≠ ':' ∧ c ≠ '\t' ∧ c ≠ '\r' ∧ c ≠ '\n' ∧
      (c.isAlpha = true → (Char.toLower c).isAlpha = true) := by decide

theorem https_schemeOK : SchemeOK (ofS "https") := by decide

theorem schemeSplit_ok (d url : Str) :
    (schemeSplit d url).1 = d ∨ SchemeOK (schemeSplit d url).1 := by
  unfold schemeSplit
  split
  next i hfind =>
    split
    next hcond =>
      right
      obtain ⟨hi, halpha, hall⟩ := hcond
      have hne : url ≠ [] := by
        rintro rfl
        simp [List.findIdx?_nil] at hfind
      have hmem : ∀ c ∈ url.take i, c ∈ schemeChars := by
        intro c hc
        have h1 := List.all_eq_true.mp hall c hc
        rw [contains_eq_decide] at h1
        exact of_decide_eq_true h1
      cases hu : url with
      | nil => exact absurd hu hne
      | cons c0 t =>
        cases i with
        | zero => exact absurd hi (by omega)
        | succ j =>
          subst hu
          have htake : (c0 :: t).take (j + 1) = c0 :: t.take j := rfl
          have hc0 : c0 ∈ (c0 :: t).take (j + 1) := by
            rw [htake]; exact List.mem_cons_self _ _
          have hc0s : c0 ∈ schemeChars := hmem c0 hc0
          refine ⟨?_, ?_, ?_, ?_⟩
          · show toLowerS ((c0 :: t).take (j + 1)) ≠ []
            simp [toLowerS, htake]
          · show ∀ c ∈ toLowerS ((c0 :: t).take (j + 1)), c ∈ schemeChars
            intro c hc
            simp only [toLowerS, List.mem_map] at hc
            obtain ⟨d', hd', rfl⟩ := hc
            exact (schemeChars_closed d' (hmem d' hd')).1
          · show toLowerS (toLowerS ((c0 :: t).take (j + 1)))
                = toLowerS ((c0 :: t).take (j + 1))
            simp only [toLowerS, List.map_map]
            apply List.map_congr_left
            intro d' hd'
            exact (schemeChars_closed d' (hmem d' hd')).2.1
          · show ((toLowerS ((c0 :: t).take (j + 1))).headD ' ').isAlpha
            rw [htake]
            simp only [toLowerS, List.map_cons, List.headD_cons]
            exact (schemeChars_closed c0 hc0s).2.2.2.2.2.2.2 (by simpa using halpha)
    next hcond => left; rfl
  next hfind => left; rfl

theorem splitFragPart_fst (x : Str) :
    (∀ c ∈ (splitFragPart x).1, c ≠ '#') ∧ ((splitFragPart x).1).Sublist x := by
  unfold splitFragPart
  split
  · constructor
    · intro c hc
      simpa using List.mem_takeWhile_imp hc
    · exact List.takeWhile_sublist _
  · next hcon =>
    constructor
    · intro c hc
      rintro rfl
      rw [contains_eq_decide] at hcon
      exact hcon (decide_eq_true hc)
    · exact List.Sublist.refl x

theorem splitQueryPart_fst (x : Str) :
    (∀ c ∈ (splitQueryPart x).1, c ≠ '?') ∧ ((splitQueryPart x).1).Sublist x := by
  unfold splitQueryPart
  split
  · constructor
    · intro c hc
      simpa using List.mem_takeWhile_imp hc
    · exact List.takeWhile_sublist _
  · next hcon =>
    constructor
    · intro c hc
      rintro rfl
      rw [contains_eq_decide] at hcon
      exact hcon (decide_eq_true hc)
    · exact List.Sublist.refl x

theorem splitNetlocPart_snd_sublist (x : Str) : ((splitNetlocPart x).2).Sublist x := by
  unfold splitNetlocPart
  split
  · exact ((List.dropWhile_sublist _).trans (List.drop_sublist _ _))
  · exact List.Sublist.refl x

theorem schemeSplit_snd_sublist (d x : Str) : ((schemeSplit d x).2).Sublist x := by
  unfold schemeSplit
  split
  next i hfind =>
    split
    next => exact List.drop_sublist _ _
    next => exact List.Sublist.refl x
  next => exact List.Sublist.refl x

theorem urlClean_no_unsafe (u : Str) :
    ∀ c ∈ urlClean u, c ≠ '\t' ∧ c ≠ '\r' ∧ c ≠ '\n' := by
  intro c hc
  unfold urlClean removeUnsafe at hc
  have := (List.mem_filter.mp hc).2
  simp only [decide_eq_true_eq] at this
  exact ⟨fun h => this (Or.inl h), fun h => this (Or.inr (Or.inl h)),
    fun h => this (Or.inr (Or.inr h))⟩

theorem urlsplitD_inv {d u : Str} {r : SplitResult} (h : urlsplitD d u = some r) :
    r = ⟨(schemeSplit d (urlClean u)).1,
         (splitNetlocPart (schemeSplit d (urlClean u)).2).1,
         (splitQueryPart (splitFragPart (splitNetlocPart
           (schemeSplit d (urlClean u)).2).2).1).1,
         (splitQueryPart (splitFragPart (splitNetlocPart
           (schemeSplit d (urlClean u)).2).2).1).2,
         (splitFragPart (splitNetlocPart (schemeSplit d (urlClean u)).2).2).2⟩ := by
  simp only [urlsplitD] at h
  split at h
  · exact absurd h (by simp)
  · split at h
    · exact absurd h (by simp)
    · exact (Option.some.inj h).symm

theorem splitparamsF_fst_chars (x : Str) : ∀ c ∈ (splitparamsF x).1, c ∈ x := by
  simp only [splitparamsF]
  split
  · split
    · intro c hc
      have hc2 : c ∈ upToLastSlash x ++ (lastSegment x).takeWhile (· ≠ ';') := hc
      rw [List.mem_append] at hc2
      cases hc2 with
      | inl h1 => exact mem_of_sublist (upToLastSlash_sublist x) h1
      | inr h2 =>
        exact mem_of_sublist (lastSegment_sublist x)
          (mem_of_sublist (List.takeWhile_sublist _) h2)
    · intro c hc; exact hc
  · split
    · intro c hc
      have hc2 : c ∈ x.takeWhile (· ≠ ';') := hc
      exact mem_of_sublist (List.takeWhile_sublist _) hc2
    · intro c hc; exact hc

theorem urlparseD_inv {d u : Str} {p : ParseResult} (h : urlparseD d u = some p) :
    ∃ r, urlsplitD d u = some r ∧ p.scheme = r.scheme ∧ p.netloc = r.netloc ∧
      p.query = r.query ∧ p.fragment = r.fragment ∧
      ((p.path = r.path ∧ p.params = []) ∨
        ((uses_params.contains r.scheme ∧ r.path.contains ';') ∧
         p.path = (splitparamsF r.path).1 ∧ p.params = (splitparamsF r.path).2)) := by
  unfold urlparseD at h
  cases hr : urlsplitD d u with
  | none => rw [hr] at h; simp at h
  | some r =>
    rw [hr] at h
    simp only [Option.map_some'] at h
    refine ⟨r, rfl, ?_⟩
    split at h
    · next hcond =>
      obtain rfl := (Option.some.inj h).symm
      exact ⟨rfl, rfl, rfl, rfl, Or.inr ⟨hcond, rfl, rfl⟩⟩
    · obtain rfl := (Option.some.inj h).symm
      exact ⟨rfl, rfl, rfl, rfl, Or.inl ⟨rfl, rfl⟩⟩

theorem urlparseF_wf {u : Str} {p : ParseResult} (h : urlparseF u = some p) :
    (p.scheme = [] ∨ SchemeOK p.scheme) ∧ PathOK p.path := by
  obtain ⟨r, hr, hsch, hnet, hq, hf, hpp⟩ := urlparseD_inv h
  obtain rfl := urlsplitD_inv hr
  constructor
  · rw [hsch]
    exact schemeSplit_ok [] (urlClean u)
  · have hr_path : PathOK (splitQueryPart (splitFragPart (splitNetlocPart
        (schemeSplit [] (urlClean u)).2).2).1).1 := by
      intro c hc
      have h1 : c ∈ (splitFragPart (splitNetlocPart
          (schemeSplit [] (urlClean u)).2).2).1 :=
        mem_of_sublist (splitQueryPart_fst _).2 hc
      have h2 : c ∈ (splitNetlocPart (schemeSplit [] (urlClean u)).2).2 :=
        mem_of_sublist (splitFragPart_fst _).2 h1
      have h3 : c ∈ urlClean u :=
        mem_of_sublist ((splitNetlocPart_snd_sublist _).trans
          (schemeSplit_snd_sublist _ _)) h2
      have h4 := urlClean_no_unsafe u c h3
      exact ⟨(splitFragPart_fst _).1 c h1, (splitQueryPart_fst _).1 c hc,
        h4.1, h4.2.1, h4.2.2⟩
    cases hpp with
    | inl hcase => rw [hcase.1]; exact hr_path
    | inr hcase =>
      rw [hcase.2.1]
      intro c hc
      exact hr_path c (splitparamsF_fst_chars _ c hc)

/-! ## Reparsing a canonicalized URL -/

/-- The scheme written out by `canonical_product_url`
(`p.scheme or "https"`). -/
def canonScheme (p : ParseResult) : Str :=
  if p.scheme = [] then ofS "https" else p.scheme

/-- The exact string produced by `canonical_product_url`:
scheme (defaulted to https), forced host, normalised path. -/
def canonOut (p : ParseResult) : Str :=
  canonScheme p ++
    ':' :: '/' :: '/' :: (kilimallHost ++ addSlash (rstripSlashes p.path))

theorem canonScheme_ne_nil (p : ParseResult) : canonScheme p ≠ [] := by
  unfold canonScheme
  split
  · decide
  · next hne => exact hne

theorem canon_shape {u : Str} {p : ParseResult} (h : urlparseF u = some p) :
    canonical_product_url u = some (canonOut p) := by
  unfold canonical_product_url
  rw [h, Option.map_some']
  congr 1
  have hsch : canonScheme p ≠ [] := canonScheme_ne_nil p
  simp only [urlunparseF, urlunsplitF, canonOut, canonScheme] at hsch ⊢
  rw [if_neg (by simp : ¬(([] : Str) ≠ []))]
  rw [if_pos (Or.inl (by decide : kilimallHost ≠ ([] : Str)))]
  rw [if_pos hsch]
  rw [if_neg (by simp : ¬(([] : Str) ≠ [])), if_neg (by simp : ¬(([] : Str) ≠ []))]
  simp [ofS]

theorem urlClean_fixed {s : Str} {c0 : Char} (hhead : s.head? = some c0)
    (h32 : 32 < c0.toNat)
    (hall : ∀ c ∈ s, c ≠ '\t' ∧ c ≠ '\r' ∧ c ≠ '\n') : urlClean s = s := by
  unfold urlClean removeUnsafe
  rw [dropWhile_eq_self_of_head hhead (by simp; omega)]
  rw [List.filter_eq_self.mpr]
  intro a ha
  have h := hall a ha
  simp [h.1, h.2.1, h.2.2]

theorem schemeSplit_of_append (s r d : Str) (hne : s ≠ [])
    (hmem : ∀ c ∈ s, c ∈ schemeChars) (halpha : (s.headD ' ').isAlpha) :
    schemeSplit d (s ++ ':' :: r) = (toLowerS s, r) := by
  unfold schemeSplit
  rw [findIdx_colon_append s r (fun c hc => (schemeChars_closed c (hmem c hc)).2.2.2.1)]
  show (if 0 < s.length ∧ ((s ++ ':' :: r).headD ' ').isAlpha ∧
      ((s ++ ':' :: r).take s.length).all (schemeChars.contains ·) then
      (toLowerS ((s ++ ':' :: r).take s.length), (s ++ ':' :: r).drop (s.length + 1))
    else (d, s ++ ':' :: r)) = (toLowerS s, r)
  have htake : (s ++ ':' :: r).take s.length = s := List.take_left s (':' :: r)
  have hdrop : (s ++ ':' :: r).drop (s.length + 1) = r := by
    have hshape : s ++ ':' :: r = (s ++ [':']) ++ r := by simp
    have hlen : s.length + 1 = (s ++ [':']).length := by simp
    rw [hshape, hlen, List.drop_left]
  rw [if_pos ?_]
  · rw [htake, hdrop]
  · refine ⟨List.length_pos.mpr hne, ?_, ?_⟩
    · rw [headD_append_of_ne_nil _ ' ' hne]; exact halpha
    · rw [htake]
      rw [List.all_eq_true]
      intro c hc
      rw [contains_eq_decide]
      exact decide_eq_true (hmem c hc)

theorem kilimallHost_no_delim : ∀ c ∈ kilimallHost, ¬ netlocDelim c := by decide

theorem splitNetlocPart_of (q : Str) (hq : q = [] ∨ q.head? = some '/') :
    splitNetlocPart ('/' :: '/' :: (kilimallHost ++ q)) = (kilimallHost, q) := by
  unfold splitNetlocPart
  rw [if_pos (show List.take 2 ('/' :: '/' :: (kilimallHost ++ q)) = ofS "//" from rfl)]
  have hdrop : ('/' :: '/' :: (kilimallHost ++ q)).drop 2 = kilimallHost ++ q := rfl
  rw [hdrop]
  have hhost : ∀ c ∈ kilimallHost, (decide ¬(netlocDelim c = true)) = true := by decide
  rw [takeWhile_append_all q hhost, dropWhile_append_all q hhost]
  cases hq with
  | inl h => subst h; simp
  | inr h =>
    have hdel : ¬ ((decide ¬(netlocDelim '/' = true)) = true) := by decide
    rw [takeWhile_eq_nil_of_head h hdel, dropWhile_eq_self_of_head h hdel]
    simp

theorem urlsplit_canonOut {s' q : Str} (hs : SchemeOK s')
    (hq1 : q = [] ∨ q.head? = some '/') (hq2 : PathOK q) :
    urlsplitD [] (s' ++ ':' :: '/' :: '/' :: (kilimallHost ++ q))
      = some ⟨s', kilimallHost, q, [], []⟩ := by
  obtain ⟨hne, hmem, hlow, halpha⟩ := hs
  have hhostsafe : ∀ c ∈ kilimallHost, c ≠ '\t' ∧ c ≠ '\r' ∧ c ≠ '\n' := by decide
  have hclean : urlClean (s' ++ ':' :: '/' :: '/' :: (kilimallHost ++ q))
      = s' ++ ':' :: '/' :: '/' :: (kilimallHost ++ q) := by
    obtain ⟨c0, t0, rfl⟩ : ∃ c0 t0, s' = c0 :: t0 := by
      cases s' with
      | nil => exact absurd rfl hne
      | cons a b => exact ⟨a, b, rfl⟩
    refine @urlClean_fixed _ c0 ?_ ?_ ?_
    · rfl
    · exact (schemeChars_closed c0 (hmem c0 (List.mem_cons_self _ _))).2.2.1
    · intro c hc
      rcases List.mem_append.mp hc with h1 | h2
      · have hf := schemeChars_closed c (hmem c h1)
        exact ⟨hf.2.2.2.2.1, hf.2.2.2.2.2.1, hf.2.2.2.2.2.2.1⟩
      · rcases List.mem_cons.mp h2 with rfl | h3
        · decide
        · rcases List.mem_cons.mp h3 with rfl | h4
          · decide
          · rcases List.mem_cons.mp h4 with rfl | h5
            · decide
            · rcases List.mem_append.mp h5 with h6 | h7
              · exact hhostsafe c h6
              · have hf := hq2 c h7
                exact ⟨hf.2.2.1, hf.2.2.2.1, hf.2.2.2.2⟩
  have hss : schemeSplit [] (urlClean (s' ++ ':' :: '/' :: '/' :: (kilimallHost ++ q)))
      = (s', '/' :: '/' :: (kilimallHost ++ q)) := by
    rw [hclean, schemeSplit_of_append _ _ _ hne hmem halpha, hlow]
  have hnofrag : '#' ∉ q := fun hm => (hq2 _ hm).1 rfl
  have hnoq : '?' ∉ q := fun hm => (hq2 _ hm).2.1 rfl
  simp only [urlsplitD, hss, splitNetlocPart_of q hq1]
  rw [if_neg (by decide), if_neg (by decide)]
  simp only [splitFragPart, splitQueryPart]
  simp [hnofrag, hnoq, contains_eq_decide]

theorem rstripSlashes_sublist (s : Str) : (rstripSlashes s).Sublist s := by
  unfold rstripSlashes
  have h0 : (List.dropWhile (· = '/') s.reverse).Sublist s.reverse := by
    apply List.dropWhile_sublist
  have h := h0.reverse
  simpa using h

theorem addSlash_head (s : Str) : addSlash s = [] ∨ (addSlash s).head? = some '/' := by
  unfold addSlash
  by_cases h1 : s = []
  · subst h1; left; simp
  · by_cases h2 : s.head? = some '/'
    · rw [if_neg (by exact fun hh => hh.2 h2)]; right; exact h2
    · rw [if_pos ⟨h1, h2⟩]; right; rfl

theorem pathOK_addSlash_rstrip {x : Str} (hx : PathOK x) :
    PathOK (addSlash (rstripSlashes x)) := by
  intro c hc
  unfold addSlash at hc
  split at hc
  · rcases List.mem_cons.mp hc with rfl | h2
    · exact ⟨by decide, by decide, by decide, by decide, by decide⟩
    · exact hx c (mem_of_sublist (rstripSlashes_sublist x) h2)
  · exact hx c (mem_of_sublist (rstripSlashes_sublist x) hc)

theorem canonScheme_ok {u : Str} {p : ParseResult} (h : urlparseF u = some p) :
    SchemeOK (canonScheme p) := by
  unfold canonScheme
  rcases (urlparseF_wf h).1 with h1 | h1
  · rw [if_pos h1]; exact https_schemeOK
  · rw [if_neg h1.1]; exact h1

theorem urlsplit_of_canonOut {u : Str} {p : ParseResult} (h : urlparseF u = some p) :
    urlsplitD [] (canonOut p) = some ⟨canonScheme p, kilimallHost,
      addSlash (rstripSlashes p.path), [], []⟩ :=
  urlsplit_canonOut (canonScheme_ok h) (addSlash_head _)
    (pathOK_addSlash_rstrip (urlparseF_wf h).2)

theorem urlparse_of_canonOut {u : Str} {p : ParseResult} (h : urlparseF u = some p) :
    urlparseF (canonOut p) = some (
      if uses_params.contains (canonScheme p) ∧
          (addSlash (rstripSlashes p.path)).contains ';' then
        ⟨canonScheme p, kilimallHost, (splitparamsF (addSlash (rstripSlashes p.path))).1,
          (splitparamsF (addSlash (rstripSlashes p.path))).2, [], []⟩
      else ⟨canonScheme p, kilimallHost, addSlash (rstripSlashes p.path), [], [], []⟩) := by
  unfold urlparseF urlparseD
  rw [urlsplit_of_canonOut h, Option.map_some']

theorem head_dropWhile_not {p : Char → Bool} : ∀ (l : Str) {c : Char},
    (l.dropWhile p).head? = some c → p c = false := by
  intro l
  induction l with
  | nil => intro c h; simp at h
  | cons a t ih =>
    intro c h
    rw [List.dropWhile_cons] at h
    split at h
    · exact ih h
    · next hc =>
      obtain rfl : a = c := by simpa using h
      simpa using hc

theorem rstripSlashes_last {x : Str} {c : Char}
    (h : (rstripSlashes x).reverse.head? = some c) : c ≠ '/' := by
  unfold rstripSlashes at h
  rw [List.reverse_reverse] at h
  have h2 := head_dropWhile_not _ h
  simpa using h2

theorem rstripSlashes_eq_self {y : Str}
    (h : ∀ c, y.reverse.head? = some c → c ≠ '/') : rstripSlashes y = y := by
  unfold rstripSlashes
  cases hy : y.reverse with
  | nil =>
    have : y = [] := by simpa using congrArg List.reverse hy
    simp [this]
  | cons a t =>
    have hna : ¬ ((fun x => decide (x = '/')) a = true) := by
      have h2 := h a (by rw [hy]; rfl)
      simpa using h2
    rw [show List.dropWhile (fun x => decide (x = '/')) (a :: t) = a :: t from
        dropWhile_eq_self_of_head rfl hna, ← hy,
      List.reverse_reverse]

theorem normPath_fixed (x : Str) :
    addSlash (rstripSlashes (addSlash (rstripSlashes x))) = addSlash (rstripSlashes x) := by
  have hlast : ∀ c, (rstripSlashes x).reverse.head? = some c → c ≠ '/' :=
    fun c hc => rstripSlashes_last hc
  cases hppc : rstripSlashes x with
  | nil => rfl
  | cons c t =>
    rw [hppc] at hlast
    by_cases hc : c = '/'
    · subst hc
      have h1 : addSlash ('/' :: t) = '/' :: t := by
        unfold addSlash
        rw [if_neg (by exact fun hh => hh.2 rfl)]
      rw [h1, rstripSlashes_eq_self hlast, h1]
    · have h1 : addSlash (c :: t) = '/' :: c :: t := by
        unfold addSlash
        rw [if_pos ⟨by simp, by simpa using hc⟩]
      rw [h1]
      have h2 : rstripSlashes ('/' :: c :: t) = '/' :: c :: t := by
        apply rstripSlashes_eq_self
        intro d hd
        rw [List.reverse_cons, head?_append_of_ne_nil _ (by simp)] at hd
        exact hlast d hd
      rw [h2]
      unfold addSlash
      rw [if_neg (by exact fun hh => hh.2 rfl)]

theorem takeWhile_eq_self_of_all {p : Char → Bool} {a : Str} (h : ∀ c ∈ a, p c) :
    a.takeWhile p = a := by
  have h2 := @takeWhile_append_all p _ [] h
  simpa using h2

theorem takeWhile_append_split {p : Char → Bool} (a b : Str) :
    (a ++ b).takeWhile p = if a.all p then a ++ b.takeWhile p else a.takeWhile p := by
  induction a with
  | nil => simp
  | cons c t ih =>
    by_cases hc : p c
    · simp only [List.cons_append, List.takeWhile_cons, hc, if_true, List.all_cons,
        Bool.true_and]
      rw [ih]
      by_cases ht : t.all p = true
      · simp [ht]
      · simp [ht]
    · simp [List.takeWhile_cons, hc, List.all_cons]

theorem lastSegment_addSlash (y : Str) : lastSegment (addSlash y) = lastSegment y := by
  unfold addSlash
  split
  · unfold lastSegment
    rw [List.reverse_cons, takeWhile_append_split]
    by_cases hall : y.reverse.all (fun c => decide ¬(c = '/'))
    · rw [if_pos hall]
      rw [takeWhile_eq_self_of_all (List.all_eq_true.mp hall)]
      simp
    · rw [if_neg hall]
  · rfl

theorem splitparamsF_no_split {y : Str} (hy : ';' ∉ lastSegment y)
    (hslash : y.contains '/' = true) : splitparamsF y = (y, []) := by
  simp only [splitparamsF]
  rw [if_pos hslash, if_neg ?_]
  rw [contains_eq_decide]
  simp [hy]

theorem canonOut_parse {u : Str} {p : ParseResult} (hp : urlparseF u = some p)
    (hsemi : ';' ∉ lastSegment (rstripSlashes p.path)) :
    urlparseF (canonOut p) = some ⟨canonScheme p, kilimallHost,
      addSlash (rstripSlashes p.path), [], [], []⟩ := by
  rw [urlparse_of_canonOut hp]
  congr 1
  by_cases hcond : uses_params.contains (canonScheme p) ∧
      (addSlash (rstripSlashes p.path)).contains ';'
  · rw [if_pos hcond]
    have hslash : (addSlash (rstripSlashes p.path)).contains '/' = true := by
      rcases addSlash_head (rstripSlashes p.path) with hq | hq
      · rw [hq] at hcond
        simpa using hcond.2
      · cases hqq : addSlash (rstripSlashes p.path) with
        | nil => rw [hqq] at hq; simp at hq
        | cons a t =>
          rw [hqq] at hq
          obtain rfl : a = '/' := by simpa using hq
          rw [contains_eq_decide]
          simp
    have hnos : ';' ∉ lastSegment (addSlash (rstripSlashes p.path)) := by
      rw [lastSegment_addSlash]; exact hsemi
    rw [splitparamsF_no_split hnos hslash]
  · rw [if_neg hcond]

/-- C4 (amended): `canonical_product_url` is idempotent on every URL
that parses successfully and whose canonical path hides no
`;params` suffix behind trailing slashes — precisely, the last
`/`-segment of the parsed path with all trailing slashes removed
contains no `;`.  (Without that proviso idempotence fails, see the
counterexample: a trailing slash shields a `;` from the first parse's
params split, and only the second parse splits it off.) -/
theorem canonicalize_idempotent (u c : Str) (p : ParseResult)
    (hp : urlparseF u = some p)
    (hsemi : ';' ∉ lastSegment (rstripSlashes p.path))
    (hc : canonical_product_url u = some c) :
    canonical_product_url c = some c := by
  have hcs := canon_shape hp
  rw [hc] at hcs
  obtain rfl : c = canonOut p := Option.some.inj hcs
  have hparse := canonOut_parse hp hsemi
  have hshape2 := canon_shape hparse
  rw [hshape2]
  congr 1
  have hne := canonScheme_ne_nil p
  have hcs2 : canonScheme (⟨canonScheme p, kilimallHost,
      addSlash (rstripSlashes p.path), [], [], []⟩ : ParseResult) = canonScheme p := by
    unfold canonScheme
    exact if_neg hne
  show canonOut ⟨canonScheme p, kilimallHost,
      addSlash (rstripSlashes p.path), [], [], []⟩ = canonOut p
  unfold canonOut
  rw [hcs2]
  have hp2path : (⟨canonScheme p, kilimallHost, addSlash (rstripSlashes p.path),
      [], [], []⟩ : ParseResult).path = addSlash (rstripSlashes p.path) := rfl
  rw [hp2path, normPath_fixed p.path]

/-- C4 counterexample: the claim "canonicalize(canonicalize(u)) =
canonicalize(u) for every URL string u" fails at u = "/x;y/": the
trailing slash keeps ";y" out of the params split on the first pass,
and the second pass splits it off. -/
theorem canonicalize_idempotent_cex :
    (canonical_product_url (ofS "/x;y/")).bind canonical_product_url
      ≠ canonical_product_url (ofS "/x;y/") ∧
    canonical_product_url (ofS "/x;y/")
      = some (ofS "https://www.kilimall.co.ke/x;y") ∧
    canonical_product_url (ofS "https://www.kilimall.co.ke/x;y")
      = some (ofS "https://www.kilimall.co.ke/x") := by decide

/-- C4 witness: the amended idempotence theorem applied at a concrete
product URL. -/
theorem canonicalize_idempotent_witness :
    canonical_product_url (ofS "https://www.kilimall.co.ke/listing/1001")
      = some (ofS "https://www.kilimall.co.ke/listing/1001") :=
  canonicalize_idempotent (ofS "https://www.kilimall.co.ke/listing/1001?x=1#frag")
    (ofS "https://www.kilimall.co.ke/listing/1001")
    ⟨ofS "https", ofS "www.kilimall.co.ke", ofS "/listing/1001", [],
      ofS "x=1", ofS "frag"⟩
    (by decide) (by decide) (by decide)

/-- C5 (amended): parsing the canonical URL back shows: empty query,
empty fragment, the fixed storefront host, the scheme of `u` itself
(lowercased, defaulting to "https" only when `u` has none — the
original scheme is NOT forced to the storefront's scheme), and the
parsed path of `u` with ALL trailing slashes removed (not just one)
and a leading slash added when missing. -/
theorem canonical_components (u c : Str) (p : ParseResult)
    (hp : urlparseF u = some p) (hc : canonical_product_url u = some c) :
    urlsplitD [] c = some ⟨canonScheme p, kilimallHost,
      addSlash (rstripSlashes p.path), [], []⟩ := by
  have hcs := canon_shape hp
  rw [hc] at hcs
  obtain rfl : c = canonOut p := Option.some.inj hcs
  exact urlsplit_of_canonOut hp

/-- C5 counterexample: at u = "http://evil.com/a//" the canonical URL
keeps the original scheme "http" (the claim demands the storefront's
declared scheme "https") and strips BOTH trailing slashes (the claim
demands exactly one). -/
theorem canonical_components_cex :
    canonical_product_url (ofS "http://evil.com/a//")
      = some (ofS "http://www.kilimall.co.ke/a") ∧
    urlsplitD [] (ofS "http://www.kilimall.co.ke/a")
      = some ⟨ofS "http", ofS "www.kilimall.co.ke", ofS "/a", [], []⟩ ∧
    ofS "http" ≠ ofS "https" ∧ ofS "/a" ≠ ofS "/a/" := by decide

/-- C5 witness: the amended component theorem applied at a concrete
storefront URL. -/
theorem canonical_components_witness :
    urlsplitD [] (ofS "https://www.kilimall.co.ke/listing/42")
      = some ⟨ofS "https", ofS "www.kilimall.co.ke", ofS "/listing/42", [], []⟩ :=
  canonical_components (ofS "https://www.kilimall.co.ke/listing/42/?page=2")
    (ofS "https://www.kilimall.co.ke/listing/42")
    ⟨ofS "https", ofS "www.kilimall.co.ke", ofS "/listing/42/", [],
      ofS "page=2", []⟩
    (by decide) (by decide)

/-! ## First-match preservation for `extract_listing_id` (C9) -/

theorem listingMarker_eq : listingMarker
    = '/' :: 'l' :: 'i' :: 's' :: 't' :: 'i' :: 'n' :: 'g' :: '/' :: [] := by decide

theorem fm_cons (c : Char) (t : Str) :
    fmListing (c :: t) = if listingMarker.isPrefixOf (c :: t) ∧
        headIsDigit ((c :: t).drop 9)
      then some (takeDigits ((c :: t).drop 9))
      else fmListing t := rfl

theorem takeDigits_append {b : Str}
    (hb : ∀ d, b.head? = some d → d.isDigit = false) :
    ∀ a : Str, takeDigits (a ++ b) = takeDigits a := by
  intro a
  induction a with
  | nil =>
    cases hbb : b with
    | nil => rfl
    | cons d t =>
      have hdd := hb d (by rw [hbb]; rfl)
      simp [takeDigits, hdd]
  | cons c t ih =>
    by_cases hc : c.isDigit
    · simp [takeDigits, hc, ih]
    · simp [takeDigits, hc]

theorem headIsDigit_append {b : Str}
    (hb : ∀ d, b.head? = some d → d.isDigit = false) (a : Str) :
    headIsDigit (a ++ b) = headIsDigit a := by
  cases a with
  | nil =>
    cases hbb : b with
    | nil => rfl
    | cons d t =>
      have hdd := hb d (by rw [hbb]; rfl)
      simp [headIsDigit, hdd]
  | cons c t => rfl

theorem marker_drop_slash : ∀ k : Nat, k ≤ 8 → '/' ∈ listingMarker.drop k := by
  intro k hk
  interval_cases k <;> decide

theorem marker_drop_g : ∀ k : Nat, k ≤ 7 → 'g' ∈ listingMarker.drop k := by
  intro k hk
  interval_cases k <;> decide

theorem fm_blob_none : ∀ (blob : Str),
    ((∀ c ∈ blob, c = '/') ∨ ('/' ∉ blob)) → fmListing blob = none := by
  intro blob
  induction blob with
  | nil => intro hb; rfl
  | cons c t ih =>
    intro hb
    rw [fm_cons, if_neg ?_]
    · apply ih
      rcases hb with h1 | h2
      · exact Or.inl (fun d hd => h1 d (List.mem_cons_of_mem _ hd))
      · exact Or.inr (fun hd => h2 (List.mem_cons_of_mem _ hd))
    · rintro ⟨hpre, -⟩
      obtain ⟨r, hr⟩ := List.isPrefixOf_iff_prefix.mp hpre
      rw [listingMarker_eq] at hr
      have hc : c = '/' := (List.cons.inj hr).1.symm
      have hl : 'l' ∈ c :: t := by
        rw [← hr]; simp
      rcases hb with h1 | h2
      · have := h1 'l' hl
        exact absurd this (by decide)
      · exact h2 (by rw [hc]; exact List.mem_cons_self _ _)

theorem fm_append_blob (blob : Str)
    (hb : (∀ c ∈ blob, c = '/') ∨ ('/' ∉ blob))
    (hd : ∀ d, blob.head? = some d → d.isDigit = false) :
    ∀ a : Str, fmListing (a ++ blob) = fmListing a := by
  intro a
  induction a with
  | nil =>
    rw [List.nil_append, fm_blob_none blob hb]
    rfl
  | cons c t ih =>
    rw [List.cons_append, fm_cons, fm_cons]
    by_cases hpre : listingMarker.isPrefixOf (c :: t) = true
    · have hpre2 : listingMarker <+: (c :: t) := List.isPrefixOf_iff_prefix.mp hpre
      have hlen : 9 ≤ (c :: t).length := by
        have hle := hpre2.length_le
        rw [listingMarker_eq] at hle
        simpa using hle
      have hdropApp : (c :: (t ++ blob)).drop 9 = (c :: t).drop 9 ++ blob := by
        rw [← List.cons_append]
        exact List.drop_append_of_le_length hlen
      have hpreL : listingMarker.isPrefixOf (c :: (t ++ blob)) = true := by
        rw [List.isPrefixOf_iff_prefix, ← List.cons_append]
        exact hpre2.trans (List.prefix_append _ _)
      by_cases hdg : headIsDigit ((c :: t).drop 9) = true
      · rw [if_pos ?_, if_pos ⟨hpre, hdg⟩]
        · congr 1
          rw [hdropApp]
          exact takeDigits_append hd _
        · refine ⟨hpreL, ?_⟩
          rw [hdropApp, headIsDigit_append hd]
          exact hdg
      · rw [if_neg ?_, if_neg (fun hh => hdg hh.2)]
        · exact ih
        · rintro ⟨-, hh⟩
          rw [hdropApp, headIsDigit_append hd] at hh
          exact hdg hh
    · by_cases hpreL : listingMarker.isPrefixOf (c :: (t ++ blob)) = true
      · have hpre2 : listingMarker <+: ((c :: t) ++ blob) := by
          rw [List.cons_append]; exact List.isPrefixOf_iff_prefix.mp hpreL
        have hApre : (c :: t) <+: listingMarker := by
          rcases List.prefix_or_prefix_of_prefix hpre2
              (List.prefix_append (c :: t) blob) with h1 | h2
          · exact absurd (List.isPrefixOf_iff_prefix.mpr h1) (by simpa using hpre)
          · exact h2
        have hlenA : (c :: t).length ≤ 9 := by
          have hle := hApre.length_le
          rw [listingMarker_eq] at hle
          simpa using hle
        have hlenA9 : (c :: t).length ≠ 9 := by
          intro h9
          have heq : (c :: t) = listingMarker :=
            hApre.eq_of_length (by rw [h9, listingMarker_eq]; rfl)
          apply hpre
          rw [heq]
          decide
        obtain ⟨r1, hr1⟩ := hApre
        have hr1blob : r1 <+: blob := by
          obtain ⟨r2, hr2⟩ := hpre2
          rw [← hr1, List.append_assoc] at hr2
          exact ⟨r2, List.append_cancel_left hr2⟩
        have hr1eq : r1 = listingMarker.drop (c :: t).length := by
          rw [← hr1, List.drop_left]
        have hslash_blob : '/' ∈ blob := by
          apply hr1blob.sublist.subset
          rw [hr1eq]
          exact marker_drop_slash _ (by omega)
        rcases hb with hball | hbno
        · by_cases hA8 : (c :: t).length = 8
          · have hdropb : (c :: (t ++ blob)).drop 9 = blob.drop 1 := by
              have h98 : 9 = (c :: t).length + 1 := by omega
              rw [← List.cons_append, h98, List.drop_append]
            rw [if_neg ?_, if_neg (fun hh => hpre hh.1)]
            · exact ih
            · rintro ⟨-, hh⟩
              rw [hdropb] at hh
              cases hbd : blob.drop 1 with
              | nil => rw [hbd] at hh; simp [headIsDigit] at hh
              | cons d rest =>
                rw [hbd] at hh
                have hdmem : d ∈ blob :=
                  mem_of_sublist (List.drop_sublist 1 blob)
                    (by rw [hbd]; exact List.mem_cons_self _ _)
                have hdv := hball d hdmem
                rw [hdv] at hh
                simp [headIsDigit] at hh
          · have h7 : (c :: t).length ≤ 7 := by omega
            have hg : 'g' ∈ r1 := by rw [hr1eq]; exact marker_drop_g _ h7
            have := hball 'g' (hr1blob.sublist.subset hg)
            exact absurd this (by decide)
        · exact absurd hslash_blob hbno
      · rw [if_neg (fun hh => hpreL hh.1), if_neg (fun hh => hpre hh.1)]
        exact ih

theorem rstrip_decomp (x : Str) :
    ∃ b, x = rstripSlashes x ++ b ∧ (∀ c ∈ b, c = '/') := by
  refine ⟨(x.reverse.takeWhile (· = '/')).reverse, ?_, ?_⟩
  · unfold rstripSlashes
    rw [← List.reverse_append, List.takeWhile_append_dropWhile, List.reverse_reverse]
  · intro c hc
    rw [List.mem_reverse] at hc
    simpa using List.mem_takeWhile_imp hc

theorem fm_rstrip (x : Str) : fmListing x = fmListing (rstripSlashes x) := by
  obtain ⟨b, hx, hb⟩ := rstrip_decomp x
  conv_lhs => rw [hx]
  refine fm_append_blob b (Or.inl hb) ?_ _
  intro d hdd
  have hdm : d ∈ b := by
    cases b with
    | nil => simp at hdd
    | cons e t =>
      obtain rfl : e = d := by simpa using hdd
      exact List.mem_cons_self _ _
  rw [hb d hdm]
  decide

theorem dropWhile_ne_head (a : Char) : ∀ {y : Str}, a ∈ y →
    ∃ rest, y.dropWhile (· ≠ a) = a :: rest := by
  intro y
  induction y with
  | nil => intro h; simp at h
  | cons c t ih =>
    intro h
    by_cases hc : c = a
    · subst hc
      exact ⟨t, by simp [List.dropWhile_cons]⟩
    · have hmem : a ∈ t := by
        rcases List.mem_cons.mp h with h1 | h2
        · exact absurd h1.symm hc
        · exact h2
      obtain ⟨rest, hrest⟩ := ih hmem
      refine ⟨rest, ?_⟩
      rw [List.dropWhile_cons, if_pos (by simpa using hc)]
      exact hrest

theorem fm_splitparams (y : Str) : fmListing (splitparamsF y).1 = fmListing y := by
  simp only [splitparamsF]
  split
  · split
    · next hslash hseg =>
      have hsegmem : ';' ∈ lastSegment y := by
        rw [contains_eq_decide] at hseg
        exact of_decide_eq_true hseg
      obtain ⟨rest, hrest⟩ := dropWhile_ne_head ';' hsegmem
      have hysplit : y = (upToLastSlash y ++ (lastSegment y).takeWhile (· ≠ ';'))
          ++ (';' :: rest) := by
        rw [List.append_assoc, ← hrest, List.takeWhile_append_dropWhile,
          upToLastSlash_append_lastSegment]
      have hrestseg : ∀ c ∈ rest, c ∈ lastSegment y := by
        intro c hc
        apply mem_of_sublist (List.dropWhile_sublist (· ≠ ';'))
        rw [hrest]
        exact List.mem_cons_of_mem _ hc
      have hblob : '/' ∉ (';' :: rest) := by
        intro hmem
        rcases List.mem_cons.mp hmem with h1 | h2
        · exact absurd h1 (by decide)
        · exact lastSegment_no_slash y '/' (hrestseg '/' h2) rfl
      have hfm := fm_append_blob (';' :: rest) (Or.inr hblob)
        (fun d hdd => by
          obtain rfl : d = ';' := by simpa using hdd.symm
          decide)
        (upToLastSlash y ++ (lastSegment y).takeWhile (· ≠ ';'))
      show fmListing (upToLastSlash y ++ (lastSegment y).takeWhile (· ≠ ';'))
          = fmListing y
      conv_rhs => rw [hysplit]
      exact hfm.symm
    · rfl
  · split
    · next hslash hsemi =>
      have hsemimem : ';' ∈ y := by
        rw [contains_eq_decide] at hsemi
        exact of_decide_eq_true hsemi
      obtain ⟨rest, hrest⟩ := dropWhile_ne_head ';' hsemimem
      have hysplit : y = y.takeWhile (· ≠ ';') ++ (';' :: rest) := by
        rw [← hrest, List.takeWhile_append_dropWhile]
      have hblob : '/' ∉ (';' :: rest) := by
        intro hmem
        apply hslash
        rcases List.mem_cons.mp hmem with h1 | h2
        · exact absurd h1 (by decide)
        · rw [contains_eq_decide]
          apply decide_eq_true
          have hmm : '/' ∈ y.takeWhile (· ≠ ';') ++ (';' :: rest) :=
            List.mem_append_right _ (List.mem_cons_of_mem _ h2)
          rw [← hysplit] at hmm
          exact hmm
      have hfm := fm_append_blob (';' :: rest) (Or.inr hblob)
        (fun d hdd => by
          obtain rfl : d = ';' := by simpa using hdd.symm
          decide)
        (y.takeWhile (· ≠ ';'))
      show fmListing (y.takeWhile (· ≠ ';')) = fmListing y
      conv_rhs => rw [hysplit]
      exact hfm.symm
    · rfl

/-- C9 (amended): canonicalization preserves the extractable listing
id for every URL whose parsed path is empty or starts with `/` (in
particular all absolute URLs and absolute-path hrefs).  For a relative
path the canonicalizer prepends the missing `/`, which can create a
`/listing/<digits>` match that the raw URL did not have (see the
counterexample). -/
theorem extract_id_of_canonical (u c : Str) (p : ParseResult)
    (hp : urlparseF u = some p)
    (hpath : p.path = [] ∨ p.path.head? = some '/')
    (hc : canonical_product_url u = some c) :
    extract_listing_id c = extract_listing_id u := by
  have hcs := canon_shape hp
  rw [hc] at hcs
  obtain rfl : c = canonOut p := Option.some.inj hcs
  have haddq : addSlash (rstripSlashes p.path) = rstripSlashes p.path := by
    rcases hpath with h0 | h0
    · rw [h0]; rfl
    · obtain ⟨b, hx, hball⟩ := rstrip_decomp p.path
      cases hrs : rstripSlashes p.path with
      | nil => rfl
      | cons a t =>
        rw [hrs] at hx
        have hhead : p.path.head? = some a := by rw [hx]; rfl
        rw [h0] at hhead
        obtain rfl : a = '/' := by simpa using hhead.symm
        unfold addSlash
        rw [if_neg (fun hh => hh.2 rfl)]
  unfold extract_listing_id
  rw [hp, urlparse_of_canonOut hp]
  simp only [Option.map_some']
  congr 1
  rw [haddq]
  split
  · show (fmListing (splitparamsF (rstripSlashes p.path)).1).getD []
        = (fmListing p.path).getD []
    rw [fm_splitparams, ← fm_rstrip]
  · show (fmListing (rstripSlashes p.path)).getD [] = (fmListing p.path).getD []
    rw [← fm_rstrip]

/-- C9 counterexample: at the relative URL "listing/123" the extractor
finds no id (the path lacks the leading slash that the `/listing/`
marker needs), but the canonical URL gains a leading slash, so the id
"123" appears after canonicalization. -/
theorem extract_id_of_canonical_cex :
    canonical_product_url (ofS "listing/123")
      = some (ofS "https://www.kilimall.co.ke/listing/123") ∧
    extract_listing_id (ofS "listing/123") = some [] ∧
    extract_listing_id (ofS "https://www.kilimall.co.ke/listing/123")
      = some (ofS "123") ∧
    (some [] : Option Str) ≠ some (ofS "123") := by decide

/-- C9 witness: the amended preservation theorem applied at a concrete
listing URL with query string and trailing slash. -/
theorem extract_id_of_canonical_witness :
    extract_listing_id (ofS "https://www.kilimall.co.ke/listing/777")
      = extract_listing_id (ofS "https://www.kilimall.co.ke/listing/777/?s=1") :=
  extract_id_of_canonical (ofS "https://www.kilimall.co.ke/listing/777/?s=1")
    (ofS "https://www.kilimall.co.ke/listing/777")
    ⟨ofS "https", ofS "www.kilimall.co.ke", ofS "/listing/777/", [], ofS "s=1", []⟩
    (by decide) (Or.inr (by decide)) (by decide)

/-! ## Python `json` model (CPython 3.11 `json.loads` / `json.dumps`)

`JVal` models Python's JSON values; numeric lexemes are kept verbatim
(`decode_html_from_json` only ever asks whether a value is a string).
The parser is fueled so that it stays computable by the kernel.  Two
deliberate modelling restrictions, neither exercised anywhere below:
lone `\uXXXX` surrogate escapes (CPython produces surrogate code
units, which a Lean `Char` cannot hold) make the parser fail, and
`json.dumps` is modelled only for one-field objects of strings. -/

inductive JVal where
  | jnull
  | jbool (b : Bool)
  | jnum (lexeme : Str)
  | jstr (s : Str)
  | jarr (items : List JVal)
  | jobj (fields : List (Str × JVal))

/-- The `{` character (written via its code point). -/
def lbrace : Char := Char.ofNat 123

/-- The `}` character (written via its code point). -/
def rbrace : Char := Char.ofNat 125

/-- JSON whitespace (the only characters `json.loads` skips). -/
def jsonWs (c : Char) : Bool := c = ' ' ∨ c = '\t' ∨ c = '\n' ∨ c = '\r'

/-- Lowercase hex digit, as `json.dumps` emits. -/
def hexDigitL (n : Nat) : Char :=
  if n < 10 then Char.ofNat (48 + n) else Char.ofNat (87 + n)

/-- Four lowercase hex digits of `n < 0x10000`. -/
def hex4 (n : Nat) : Str :=
  [hexDigitL (n / 4096 % 16), hexDigitL (n / 256 % 16),
   hexDigitL (n / 16 % 16), hexDigitL (n % 16)]

/-- `json.dumps` escaping of one character (default `ensure_ascii=True`). -/
def encChar (c : Char) : Str :=
  let n := c.toNat
  if c = '"' then ['\\', '"']
  else if c = '\\' then ['\\', '\\']
  else if c = '\n' then ['\\', 'n']
  else if c = '\t' then ['\\', 't']
  else if c = '\r' then ['\\', 'r']
  else if n = 8 then ['\\', 'b']
  else if n = 12 then ['\\', 'f']
  else if n < 32 ∨ 127 ≤ n then
    if n < 0x10000 then '\\' :: 'u' :: hex4 n
    else
      ('\\' :: 'u' :: hex4 (0xD800 + (n - 0x10000) / 0x400)) ++
        ('\\' :: 'u' :: hex4 (0xDC00 + (n - 0x10000) % 0x400))
  else [c]

/-- `json.dumps` escaping of a whole string (without the quotes). -/
def encodeStr (s : Str) : Str := (s.map encChar).flatten

/-- `json.dumps({key: h})` with the default separators. -/
def jsonDumps1 (key h : Str) : Str :=
  lbrace :: '"' :: (key ++ '"' :: ':' :: ' ' :: '"' :: (encodeStr h ++ '"' :: [rbrace]))

/-- Value of one hex digit (either case), as `json.loads` accepts. -/
def hexVal (c : Char) : Option Nat :=
  let n := c.toNat
  if 48 ≤ n ∧ n ≤ 57 then some (n - 48)
  else if 97 ≤ n ∧ n ≤ 102 then some (n - 87)
  else if 65 ≤ n ∧ n ≤ 70 then some (n - 55)
  else none

/-- Parse exactly four hex digits. -/
def parseU4 (s : Str) : Option (Nat × Str) :=
  match s with
  | a :: b :: c :: d :: rest =>
    match hexVal a, hexVal b, hexVal c, hexVal d with
    | some va, some vb, some vc, some vd =>
      some (va * 4096 + vb * 256 + vc * 16 + vd, rest)
    | _, _, _, _ => none
  | _ => none

/-- Prepend a character to a successful string-parse result. -/
def consMap (c : Char) : Option (Str × Str) → Option (Str × Str)
  | some (s, r) => some (c :: s, r)
  | none => none

/-- `json.loads` string scanning, after the opening quote: strict mode
(raw control characters rejected), the standard escapes, `\uXXXX`
with surrogate-pair combination. -/
def parseJStr : Nat → Str → Option (Str × Str)
  | 0, _ => none
  | _ + 1, [] => none
  | fuel + 1, c :: rest =>
    if c = '"' then some ([], rest)
    else if c = '\\' then
      match rest with
      | [] => none
      | e :: rest2 =>
        if e = '"' then consMap '"' (parseJStr fuel rest2)
        else if e = '\\' then consMap '\\' (parseJStr fuel rest2)
        else if e = '/' then consMap '/' (parseJStr fuel rest2)
        else if e = 'b' then consMap (Char.ofNat 8) (parseJStr fuel rest2)
        else if e = 'f' then consMap (Char.ofNat 12) (parseJStr fuel rest2)
        else if e = 'n' then consMap '\n' (parseJStr fuel rest2)
        else if e = 'r' then consMap '\r' (parseJStr fuel rest2)
        else if e = 't' then consMap '\t' (parseJStr fuel rest2)
        else if e = 'u' then
          (match parseU4 rest2 with
          | none => none
          | some (n, rest3) =>
            if 0xD800 ≤ n ∧ n < 0xDC00 then
              (match rest3 with
              | b1 :: b2 :: rest4 =>
                if b1 = '\\' ∧ b2 = 'u' then
                  (match parseU4 rest4 with
                  | none => none
                  | some (m, rest5) =>
                    if 0xDC00 ≤ m ∧ m < 0xE000 then
                      consMap (Char.ofNat (0x10000 + (n - 0xD800) * 0x400 + (m - 0xDC00)))
                        (parseJStr fuel rest5)
                    else none)
                else none
              | _ => none)
            else if 0xDC00 ≤ n ∧ n < 0xE000 then none
            else consMap (Char.ofNat n) (parseJStr fuel rest3))
        else none
    else if c.toNat < 32 then none
    else consMap c (parseJStr fuel rest)

/-- The optional fraction part of a JSON number (consumed only with at
least one digit after the dot). -/
def parseFracPart (s : Str) : Str × Str :=
  match s with
  | '.' :: t =>
    let ds := t.takeWhile Char.isDigit
    if ds = [] then ([], s) else ('.' :: ds, t.dropWhile Char.isDigit)
  | _ => ([], s)

/-- The optional exponent part of a JSON number. -/
def parseExpPart (s : Str) : Str × Str :=
  match s with
  | c :: t =>
    if c = 'e' ∨ c = 'E' then
      (match t with
      | c2 :: t2 =>
        if c2 = '+' ∨ c2 = '-' then
          let ds := t2.takeWhile Char.isDigit
          if ds = [] then ([], s) else (c :: c2 :: ds, t2.dropWhile Char.isDigit)
        else
          let ds := t.takeWhile Char.isDigit
          if ds = [] then ([], s) else (c :: ds, t.dropWhile Char.isDigit)
      | [] => ([], s))
    else ([], s)
  | [] => ([], s)

/-- CPython's `NUMBER_RE`: `-?(0|[1-9]\d*)(\.\d+)?([eE][+-]?\d+)?`. -/
def parseNumLex (s : Str) : Option (Str × Str) :=
  let sp : Str × Str :=
    match s with
    | c :: t => if c = '-' then (['-'], t) else ([], s)
    | [] => ([], s)
  match sp.2 with
  | [] => none
  | c :: t =>
    if c = '0' then
      let fr := parseFracPart t
      let ex := parseExpPart fr.2
      some (sp.1 ++ '0' :: (fr.1 ++ ex.1), ex.2)
    else if c.isDigit then
      let ds := t.takeWhile Char.isDigit
      let s2 := t.dropWhile Char.isDigit
      let fr := parseFracPart s2
      let ex := parseExpPart fr.2
      some (sp.1 ++ c :: (ds ++ fr.1 ++ ex.1), ex.2)
    else none

/-- Parser modes: a value, an object body (after `{`), object pairs,
an array body (after `[`), array items.  One fueled function instead
of mutual recursion keeps every call kernel-reducible. -/
inductive PMode where
  | val
  | objBody
  | pairs (acc : List (Str × JVal))
  | arrBody
  | items (acc : List JVal)

/-- `json.loads` scanner (CPython `py_make_scanner` dispatch): skip
whitespace, then dispatch on the first character (string, object,
array, keyword, number, constant). -/
def parseJ : Nat → PMode → Str → Option (JVal × Str)
  | 0, _, _ => none
  | n + 1, PMode.val, s0 =>
    let s := s0.dropWhile jsonWs
    match s with
    | [] => none
    | c :: rest =>
      if c = '"' then
        match parseJStr n rest with
        | some (str, r) => some (JVal.jstr str, r)
        | none => none
      else if c = lbrace then parseJ n PMode.objBody rest
      else if c = '[' then parseJ n PMode.arrBody rest
      else if (ofS "true").isPrefixOf s then some (JVal.jbool true, s.drop 4)
      else if (ofS "false").isPrefixOf s then some (JVal.jbool false, s.drop 5)
      else if (ofS "null").isPrefixOf s then some (JVal.jnull, s.drop 4)
      else
        match parseNumLex s with
        | some (lex, r) => some (JVal.jnum lex, r)
        | none =>
          if (ofS "NaN").isPrefixOf s then some (JVal.jnum (ofS "NaN"), s.drop 3)
          else if (ofS "Infinity").isPrefixOf s then
            some (JVal.jnum (ofS "Infinity"), s.drop 8)
          else if (ofS "-Infinity").isPrefixOf s then
            some (JVal.jnum (ofS "-Infinity"), s.drop 9)
          else none
  | n + 1, PMode.objBody, s0 =>
    let s := s0.dropWhile jsonWs
    match s with
    | [] => none
    | c :: _ =>
      if c = rbrace then some (JVal.jobj [], s.drop 1)
      else parseJ n (PMode.pairs []) s
  | n + 1, PMode.pairs acc, s =>
    (match s with
    | [] => none
    | c :: rest =>
      if c = '"' then
        match parseJStr n rest with
        | some (k, r1) =>
          (match r1.dropWhile jsonWs with
          | ':' :: r3 =>
            match parseJ n PMode.val r3 with
            | some (v, r4) =>
              (match r4.dropWhile jsonWs with
              | c2 :: r6 =>
                if c2 = rbrace then some (JVal.jobj (acc ++ [(k, v)]), r6)
                else if c2 = ',' then
                  parseJ n (PMode.pairs (acc ++ [(k, v)])) (r6.dropWhile jsonWs)
                else none
              | [] => none)
            | none => none
          | _ => none)
        | none => none
      else none)
  | n + 1, PMode.arrBody, s0 =>
    let s := s0.dropWhile jsonWs
    match s with
    | [] => none
    | c :: _ =>
      if c = ']' then some (JVal.jarr [], s.drop 1)
      else parseJ n (PMode.items []) s
  | n + 1, PMode.items acc, s =>
    match parseJ n PMode.val s with
    | some (v, r1) =>
      (match r1.dropWhile jsonWs with
      | c :: r3 =>
        if c = ']' then some (JVal.jarr (acc ++ [v]), r3)
        else if c = ',' then parseJ n (PMode.items (acc ++ [v])) r3
        else none
      | [] => none)
    | none => none


/-- `json.loads`: parse one value, then require only whitespace after
it (CPython raises "Extra data" otherwise, modelled as `none`). -/
def json_loads (s : Str) : Option JVal :=
  match parseJ (s.length + 2) PMode.val s with
  | some (v, rest) => if rest.dropWhile jsonWs = [] then some v else none
  | none => none

/-- `dict(...)` lookup: later duplicate keys overwrite earlier ones. -/
def objGet (fields : List (Str × JVal)) (k : Str) : Option JVal :=
  (fields.reverse.find? (fun kv => kv.1 = k)).map (·.2)

/-- The loop of `decode_html_from_json` over the candidate field names:
first string-valued field with non-whitespace content wins. -/
def firstHtmlField (fields : List (Str × JVal)) : List Str → Option Str
  | [] => none
  | k :: ks =>
    match objGet fields k with
    | some (JVal.jstr v) =>
      if pyStrip v ≠ [] then some v else firstHtmlField fields ks
    | _ => firstHtmlField fields ks

/-- `decode_html_from_json` (`kilimall_scraper.py` lines 160–173):
if the lstripped body starts with `{`, JSON-parse it and return the
first of the `html`/`data`/`content`/`body` fields that is a
non-blank string; on any failure (parse error, non-dict value, no
such field) return the original input unchanged. -/
def decode_html_from_json (s : Str) : Str :=
  let t := pyLstrip s
  if t.head? = some lbrace then
    match json_loads t with
    | some (JVal.jobj fields) =>
      match firstHtmlField fields
          [ofS "html", ofS "data", ofS "content", ofS "body"] with
      | some v => v
      | none => s
    | _ => s
  else s

example : json_loads (ofS "\x7b\"status\": 1, \"count\": 2\x7d")
    = some (JVal.jobj [(ofS "status", JVal.jnum (ofS "1")),
                       (ofS "count", JVal.jnum (ofS "2"))]) := rfl

example : decode_html_from_json (ofS "\x7b\"data\": \"<div>hi</div>\"\x7d")
    = ofS "<div>hi</div>" := by decide

example : decode_html_from_json (ofS "\x7b\"status\": 1\x7d")
    = ofS "\x7b\"status\": 1\x7d" := by decide

example : decode_html_from_json (ofS "not json at all") = ofS "not json at all" := by
  decide

example : jsonDumps1 (ofS "data") (ofS "a\"b\\c")
    = ofS "\x7b\"data\": \"a\\\"b\\\\c\"\x7d" := by decide

example : json_loads (jsonDumps1 (ofS "data") (ofS "a\"b\nc\x01dé"))
    = some (JVal.jobj [(ofS "data", JVal.jstr (ofS "a\"b\nc\x01dé"))]) := rfl

/-! ## Round trip: `json.loads` recovers what `json.dumps` wrote -/

theorem hexVal_hexDigitL : ∀ k : Nat, k < 16 → hexVal (hexDigitL k) = some k := by
  intro k hk
  interval_cases k <;> decide

theorem parseU4_hex4 (n : Nat) (hn : n < 0x10000) (rest : Str) :
    parseU4 (hex4 n ++ rest) = some (n, rest) := by
  show parseU4 (hexDigitL (n / 4096 % 16) :: hexDigitL (n / 256 % 16) ::
    hexDigitL (n / 16 % 16) :: hexDigitL (n % 16) :: rest) = some (n, rest)
  simp only [parseU4]
  rw [hexVal_hexDigitL _ (by omega), hexVal_hexDigitL _ (by omega),
    hexVal_hexDigitL _ (by omega), hexVal_hexDigitL _ (by omega)]
  have harith : n / 4096 % 16 * 4096 + n / 256 % 16 * 256 + n / 16 % 16 * 16 + n % 16
      = n := by omega
  simp [harith]

theorem encodeStr_cons (c : Char) (t : Str) :
    encodeStr (c :: t) = encChar c ++ encodeStr t := by
  simp [encodeStr]

theorem length_le_encodeStr (h : Str) : h.length ≤ (encodeStr h).length := by
  induction h with
  | nil => simp [encodeStr]
  | cons c t ih =>
    rw [encodeStr_cons, List.length_append]
    have h1 : 1 ≤ (encChar c).length := by
      simp only [encChar]
      repeat' split
      all_goals simp [hex4]
    simp only [List.length_cons]
    omega

theorem parseJStr_u_single (f : Nat) (n : Nat) (hn : n < 0x10000)
    (hlo : ¬(0xD800 ≤ n ∧ n < 0xDC00)) (hhi : ¬(0xDC00 ≤ n ∧ n < 0xE000)) (X : Str) :
    parseJStr (f + 1) ('\\' :: 'u' :: (hex4 n ++ X))
      = consMap (Char.ofNat n) (parseJStr f X) := by
  have hp : ∀ Y, parseU4 (hex4 n ++ Y) = some (n, Y) := fun Y => parseU4_hex4 n hn Y
  simp only [parseJStr]
  rw [if_neg (by decide), if_pos (by decide)]
  rw [if_neg (by decide), if_neg (by decide), if_neg (by decide), if_neg (by decide),
    if_neg (by decide), if_neg (by decide), if_neg (by decide), if_neg (by decide),
    if_pos (by decide)]
  simp [hp, hlo, hhi]

theorem parseJStr_u_pair (f : Nat) (n m : Nat) (hn : n < 0x10000) (hm : m < 0x10000)
    (h1 : 0xD800 ≤ n ∧ n < 0xDC00) (h2 : 0xDC00 ≤ m ∧ m < 0xE000) (X : Str) :
    parseJStr (f + 1) ('\\' :: 'u' :: (hex4 n ++ ('\\' :: 'u' :: (hex4 m ++ X))))
      = consMap (Char.ofNat (0x10000 + (n - 0xD800) * 0x400 + (m - 0xDC00)))
          (parseJStr f X) := by
  have hp1 : ∀ Y, parseU4 (hex4 n ++ Y) = some (n, Y) := fun Y => parseU4_hex4 n hn Y
  have hp2 : ∀ Y, parseU4 (hex4 m ++ Y) = some (m, Y) := fun Y => parseU4_hex4 m hm Y
  simp only [parseJStr]
  rw [if_neg (by decide), if_pos (by decide)]
  rw [if_neg (by decide), if_neg (by decide), if_neg (by decide), if_neg (by decide),
    if_neg (by decide), if_neg (by decide), if_neg (by decide), if_neg (by decide),
    if_pos (by decide)]
  simp [hp1, hp2, h1, h2]

theorem parseJStr_round : ∀ (h : Str) (fuel : Nat) (rest : Str), h.length < fuel →
    parseJStr fuel (encodeStr h ++ '"' :: rest) = some (h, rest) := by
  intro h
  induction h with
  | nil =>
    intro fuel rest hf
    obtain ⟨f, rfl⟩ : ∃ f, fuel = f + 1 := ⟨fuel - 1, by omega⟩
    simp [encodeStr, parseJStr]
  | cons c t ih =>
    intro fuel rest hf
    obtain ⟨f, rfl⟩ : ∃ f, fuel = f + 1 := ⟨fuel - 1, by omega⟩
    have hf' : t.length < f := by simp only [List.length_cons] at hf; omega
    rw [encodeStr_cons]
    have hih := ih f rest hf'
    by_cases h1 : c = '"'
    · subst h1
      show parseJStr (f + 1) (('\\' :: '"' :: []) ++ (encodeStr t ++ '"' :: rest))
          = some ('"' :: t, rest)
      simp [parseJStr, consMap, hih]
    · by_cases h2 : c = '\\'
      · subst h2
        show parseJStr (f + 1) (('\\' :: '\\' :: []) ++ (encodeStr t ++ '"' :: rest))
            = some ('\\' :: t, rest)
        simp [parseJStr, consMap, hih]
      · by_cases h3 : c = '\n'
        · subst h3
          show parseJStr (f + 1) (('\\' :: 'n' :: []) ++ (encodeStr t ++ '"' :: rest))
              = some ('\n' :: t, rest)
          simp [parseJStr, consMap, hih]
        · by_cases h4 : c = '\t'
          · subst h4
            show parseJStr (f + 1) (('\\' :: 't' :: []) ++ (encodeStr t ++ '"' :: rest))
                = some ('\t' :: t, rest)
            simp [parseJStr, consMap, hih]
          · by_cases h5 : c = '\r'
            · subst h5
              show parseJStr (f + 1)
                  (('\\' :: 'r' :: []) ++ (encodeStr t ++ '"' :: rest))
                  = some ('\r' :: t, rest)
              simp [parseJStr, consMap, hih]
            · by_cases h6 : c.toNat = 8
              · obtain rfl : c = Char.ofNat 8 := by rw [← Char.ofNat_toNat c, h6]
                show parseJStr (f + 1)
                    (('\\' :: 'b' :: []) ++ (encodeStr t ++ '"' :: rest))
                    = some (Char.ofNat 8 :: t, rest)
                simp [parseJStr, consMap, hih]
              · by_cases h7 : c.toNat = 12
                · obtain rfl : c = Char.ofNat 12 := by rw [← Char.ofNat_toNat c, h7]
                  show parseJStr (f + 1)
                      (('\\' :: 'f' :: []) ++ (encodeStr t ++ '"' :: rest))
                      = some (Char.ofNat 12 :: t, rest)
                  simp [parseJStr, consMap, hih]
                · by_cases h8 : c.toNat < 32 ∨ 127 ≤ c.toNat
                  · by_cases h9 : c.toNat < 0x10000
                    · have he : encChar c = '\\' :: 'u' :: hex4 c.toNat := by
                        simp only [encChar]
                        rw [if_neg h1, if_neg h2, if_neg h3, if_neg h4, if_neg h5,
                          if_neg h6, if_neg h7, if_pos h8, if_pos h9]
                      rw [he]
                      show parseJStr (f + 1)
                          ('\\' :: 'u' :: (hex4 c.toNat ++ (encodeStr t ++ '"' :: rest)))
                          = some (c :: t, rest)
                      have hval : c.toNat < 0xD800 ∨
                          (0xDFFF < c.toNat ∧ c.toNat < 0x110000) := c.valid
                      have hnc1 : ¬(0xD800 ≤ c.toNat ∧ c.toNat < 0xDC00) := by
                        rcases hval with hv | hv <;> omega
                      have hnc2 : ¬(0xDC00 ≤ c.toNat ∧ c.toNat < 0xE000) := by
                        rcases hval with hv | hv <;> omega
                      rw [parseJStr_u_single f c.toNat h9 hnc1 hnc2, hih]
                      simp [consMap, Char.ofNat_toNat]
                    · have h10 : 0x10000 ≤ c.toNat := by omega
                      have hval : c.toNat < 0xD800 ∨
                          (0xDFFF < c.toNat ∧ c.toNat < 0x110000) := c.valid
                      have h11 : c.toNat < 0x110000 := by
                        rcases hval with hv | hv <;> omega
                      have he : encChar c = ('\\' :: 'u' ::
                          hex4 (0xD800 + (c.toNat - 0x10000) / 0x400)) ++
                          ('\\' :: 'u' :: hex4 (0xDC00 + (c.toNat - 0x10000) % 0x400)) := by
                        simp only [encChar]
                        rw [if_neg h1, if_neg h2, if_neg h3, if_neg h4, if_neg h5,
                          if_neg h6, if_neg h7, if_pos h8, if_neg h9]
                      rw [he]
                      show parseJStr (f + 1)
                          ('\\' :: 'u' :: (hex4 (0xD800 + (c.toNat - 0x10000) / 0x400) ++
                            ('\\' :: 'u' ::
                              (hex4 (0xDC00 + (c.toNat - 0x10000) % 0x400) ++
                                (encodeStr t ++ '"' :: rest)))))
                          = some (c :: t, rest)
                      have hc1 : 0xD800 ≤ 0xD800 + (c.toNat - 0x10000) / 0x400 ∧
                          0xD800 + (c.toNat - 0x10000) / 0x400 < 0xDC00 := by
                        constructor <;> omega
                      have hc2 : 0xDC00 ≤ 0xDC00 + (c.toNat - 0x10000) % 0x400 ∧
                          0xDC00 + (c.toNat - 0x10000) % 0x400 < 0xE000 := by
                        constructor <;> omega
                      have harith : 0x10000 + (0xD800 + (c.toNat - 0x10000) / 0x400
                          - 0xD800) * 0x400 + (0xDC00 + (c.toNat - 0x10000) % 0x400
                          - 0xDC00) = c.toNat := by omega
                      rw [parseJStr_u_pair f _ _ (by omega) (by omega) hc1 hc2, hih,
                        harith]
                      simp [consMap, Char.ofNat_toNat]
                  · have he : encChar c = [c] := by
                      simp only [encChar]
                      rw [if_neg h1, if_neg h2, if_neg h3, if_neg h4, if_neg h5,
                        if_neg h6, if_neg h7, if_neg h8]
                    rw [he]
                    show parseJStr (f + 1) (c :: (encodeStr t ++ '"' :: rest))
                        = some (c :: t, rest)
                    simp only [parseJStr]
                    rw [if_neg h1, if_neg h2, if_neg (by omega : ¬ c.toNat < 32)]
                    rw [hih]
                    simp [consMap]

/-! ## The JSON envelope of `jsonDumps1` parses back -/

theorem parseJ_val_lbrace (n : Nat) (X : Str) :
    parseJ (n + 1) PMode.val (lbrace :: X) = parseJ n PMode.objBody X := by
  have h1 : ((lbrace :: X).dropWhile jsonWs) = lbrace :: X :=
    dropWhile_eq_self_of_head rfl (by decide)
  have h2 : (lbrace = '"') = False := by simp; decide
  simp only [parseJ, h1, h2]
  simp

theorem parseJ_obj_quote (n : Nat) (X : Str) :
    parseJ (n + 1) PMode.objBody ('"' :: X) = parseJ n (PMode.pairs []) ('"' :: X) := by
  have h1 : (('"' :: X).dropWhile jsonWs) = '"' :: X :=
    dropWhile_eq_self_of_head rfl (by decide)
  have h2 : (('"' : Char) = rbrace) = False := by simp; decide
  simp only [parseJ, h1, h2]
  simp

theorem parseJ_pairs_dumps (m : Nat) (acc : List (Str × JVal)) (k h : Str)
    (hk : encodeStr k = k) (hkl : k.length < m + 1) (hhl : h.length < m) :
    parseJ (m + 2) (PMode.pairs acc)
        ('"' :: (k ++ '"' :: ':' :: ' ' :: '"' :: (encodeStr h ++ '"' :: [rbrace])))
      = some (JVal.jobj (acc ++ [(k, JVal.jstr h)]), []) := by
  have hkey : parseJStr (m + 1)
      (k ++ '"' :: ':' :: ' ' :: '"' :: (encodeStr h ++ '"' :: [rbrace]))
      = some (k, ':' :: ' ' :: '"' :: (encodeStr h ++ '"' :: [rbrace])) := by
    conv_lhs => rw [← hk]
    exact parseJStr_round k (m + 1) _ hkl
  have hval : parseJ (m + 1) PMode.val
      (' ' :: '"' :: (encodeStr h ++ '"' :: [rbrace]))
      = some (JVal.jstr h, [rbrace]) := by
    obtain ⟨m0, rfl⟩ : ∃ m0, m = m0 + 1 := ⟨m - 1, by omega⟩
    have hdrop : ((' ' :: '"' :: (encodeStr h ++ '"' :: [rbrace])).dropWhile jsonWs)
        = '"' :: (encodeStr h ++ '"' :: [rbrace]) := by
      rw [List.dropWhile_cons]
      rw [if_pos (by decide)]
      exact dropWhile_eq_self_of_head rfl (by decide)
    have hstr := parseJStr_round h (m0 + 1) [rbrace] hhl
    simp only [parseJ, hdrop, hstr]
    simp
  have hdc : ((':' :: ' ' :: '"' ::
      (encodeStr h ++ '"' :: [rbrace])).dropWhile jsonWs)
      = ':' :: ' ' :: '"' :: (encodeStr h ++ '"' :: [rbrace]) :=
    dropWhile_eq_self_of_head rfl (by decide)
  have hdr : (([rbrace] : Str).dropWhile jsonWs) = [rbrace] :=
    dropWhile_eq_self_of_head rfl (by decide)
  conv_lhs => rw [parseJ]
  simp only [hkey, hdc, hval, hdr]
  simp

theorem parseJ_dumps1 (k h : Str) (g : Nat) (hk : encodeStr k = k)
    (hkl : k.length < g + 1) (hhl : h.length < g) :
    parseJ (g + 4) PMode.val (jsonDumps1 k h)
      = some (JVal.jobj [(k, JVal.jstr h)], []) := by
  show parseJ ((g + 3) + 1) PMode.val (jsonDumps1 k h) = _
  rw [jsonDumps1, parseJ_val_lbrace (g + 3)]
  show parseJ ((g + 2) + 1) PMode.objBody _ = _
  rw [parseJ_obj_quote (g + 2)]
  show parseJ (g + 2) (PMode.pairs []) _ = _
  have := parseJ_pairs_dumps g [] k h hk (by omega) hhl
  simpa using this

theorem json_loads_dumps1 (k h : Str) (hk : encodeStr k = k) :
    json_loads (jsonDumps1 k h) = some (JVal.jobj [(k, JVal.jstr h)]) := by
  have hE := length_le_encodeStr h
  have hlen : (jsonDumps1 k h).length
      = k.length + (encodeStr h).length + 8 := by
    simp [jsonDumps1]
    omega
  simp only [json_loads, hlen]
  have harith : k.length + (encodeStr h).length + 8 + 2
      = (k.length + (encodeStr h).length + 6) + 4 := by omega
  rw [harith, parseJ_dumps1 k h _ hk (by omega) (by omega)]
  simp


theorem decode_envelope (k h : Str)
    (hk : k ∈ [ofS "html", ofS "data", ofS "content", ofS "body"])
    (hh : pyStrip h ≠ []) :
    decode_html_from_json (jsonDumps1 k h) = h := by
  simp only [List.mem_cons, List.not_mem_nil, or_false] at hk
  have henc : encodeStr k = k := by
    rcases hk with rfl | rfl | rfl | rfl <;> decide
  have hload := json_loads_dumps1 k h henc
  have hlstrip : pyLstrip (jsonDumps1 k h) = jsonDumps1 k h := by
    simp only [pyLstrip, jsonDumps1]
    exact dropWhile_eq_self_of_head rfl (by decide)
  simp only [decode_html_from_json, hlstrip, hload]
  rw [if_pos (by simp [jsonDumps1])]
  rcases hk with rfl | rfl | rfl | rfl
  · have e : firstHtmlField [(ofS "html", JVal.jstr h)]
        [ofS "html", ofS "data", ofS "content", ofS "body"] = some h := by
      simp [firstHtmlField, objGet, hh]
    rw [e]
  · have hne1 : (ofS "data" = ofS "html") = False := by decide
    have e : firstHtmlField [(ofS "data", JVal.jstr h)]
        [ofS "html", ofS "data", ofS "content", ofS "body"] = some h := by
      simp [firstHtmlField, objGet, hh, hne1]
    rw [e]
  · have hne1 : (ofS "content" = ofS "html") = False := by decide
    have hne2 : (ofS "content" = ofS "data") = False := by decide
    have e : firstHtmlField [(ofS "content", JVal.jstr h)]
        [ofS "html", ofS "data", ofS "content", ofS "body"] = some h := by
      simp [firstHtmlField, objGet, hh, hne1, hne2]
    rw [e]
  · have hne1 : (ofS "body" = ofS "html") = False := by decide
    have hne2 : (ofS "body" = ofS "data") = False := by decide
    have hne3 : (ofS "body" = ofS "content") = False := by decide
    have e : firstHtmlField [(ofS "body", JVal.jstr h)]
        [ofS "html", ofS "data", ofS "content", ofS "body"] = some h := by
      simp [firstHtmlField, objGet, hh, hne1, hne2, hne3]
    rw [e]

/-! ## String splitting / joining (Python `str.split`, `str.join`) -/

/-- Helper for `splitOnC`: current token is accumulated reversed. -/
def splitOnAux (sep : Char) : Str → Str → List Str
  | [], acc => [acc.reverse]
  | c :: t, acc =>
    if c = sep then acc.reverse :: splitOnAux sep t []
    else splitOnAux sep t (c :: acc)

/-- Python `s.split(sep)` for a one-character separator: splits at every
occurrence, and the split of the empty string is `[""]`. -/
def splitOnC (sep : Char) (s : Str) : List Str := splitOnAux sep s []

/-- Python `sep.join(parts)` for a one-character separator. -/
def joinWith (sep : Char) : List Str → Str
  | [] => []
  | [x] => x
  | x :: y :: t => x ++ sep :: joinWith sep (y :: t)

/-- Python `sep.join(parts)` for an arbitrary separator. -/
def joinStr (sep : Str) : List Str → Str
  | [] => []
  | [x] => x
  | x :: y :: t => x ++ sep ++ joinStr sep (y :: t)

/-- Helper for `splitWsF`: whitespace-separated tokens, current token
accumulated reversed. -/
def splitWsAux : Str → Str → List Str
  | [], cur => if cur = [] then [] else [cur.reverse]
  | c :: t, cur =>
    if pyIsSpace c then
      (if cur = [] then splitWsAux t [] else cur.reverse :: splitWsAux t [])
    else splitWsAux t (c :: cur)

/-- Python `s.split()` (split on whitespace runs, no empty tokens). -/
def splitWsF (s : Str) : List Str := splitWsAux s []

/-- First-occurrence-preserving deduplication (a Python `set` guard in
front of an append). -/
def dedupAux {α : Type} [DecidableEq α] : List α → List α → List α
  | [], _ => []
  | x :: t, seen =>
    if seen.contains x then dedupAux t seen else x :: dedupAux t (x :: seen)

/-- First-occurrence-preserving deduplication of a list. -/
def dedupL {α : Type} [DecidableEq α] (l : List α) : List α := dedupAux l []

/-- Decimal rendering of a natural number (Python `str(n)` /
`"{}".format(n)` for non-negative ints). -/
def natStr (n : Nat) : Str := (Nat.repr n).data

example : natStr 36 = ofS "36" := by decide
example : splitOnC '/' (ofS "/a//b") = [[], ofS "a", [], ofS "b"] := by decide
example : splitOnC '/' [] = [[]] := by decide
example : joinWith '/' [[], ofS "a", ofS "b"] = ofS "/a/b" := by decide
example : splitWsF (ofS "  a  bc ") = [ofS "a", ofS "bc"] := by decide

/-! ## CPython `urljoin` (`urllib/parse.py`) -/

/-- `BASE_URL` of both scrapers. -/
def BASE_URL : Str := ofS "https://www.kilimall.co.ke"

/-- CPython: `segments[1:-1] = filter(None, segments[1:-1])` — drop
empty segments, keeping the first and the last untouched. -/
def filterMid2 : List Str → List Str
  | [] => []
  | [b] => [b]
  | b :: c :: t => if b = [] then filterMid2 (c :: t) else b :: filterMid2 (c :: t)

/-- Apply `filterMid2` to everything after the first segment. -/
def filterMiddle : List Str → List Str
  | [] => []
  | [a] => [a]
  | a :: b :: t => a :: filterMid2 (b :: t)

/-- The dot-segment resolution loop of `urljoin` (`resolved_path`);
`pop` on an empty list is ignored, exactly as the `except IndexError`. -/
def resolveSegs (segs : List Str) : List Str :=
  segs.foldl
    (fun acc seg =>
      if seg = ofS ".." then acc.dropLast
      else if seg = ofS "." then acc
      else acc ++ [seg]) []

/-- CPython `urljoin(base, url)`; `none` models a `ValueError` escaping
from `urlparse`. -/
def urljoin (base url : Str) : Option Str :=
  if base = [] then some url
  else if url = [] then some base
  else
    match urlparseD [] base with
    | none => none
    | some b =>
      match urlparseD b.scheme url with
      | none => none
      | some u =>
        if u.scheme ≠ b.scheme ∨ ¬ uses_relative.contains u.scheme then some url
        else
          let netlocCase := uses_netloc.contains u.scheme
          if netlocCase ∧ u.netloc ≠ [] then
            some (urlunparseF u.scheme u.netloc u.path u.params u.query u.fragment)
          else
            let netloc := if netlocCase then b.netloc else u.netloc
            if u.path = [] ∧ u.params = [] then
              let query := if u.query = [] then b.query else u.query
              some (urlunparseF u.scheme netloc b.path b.params query u.fragment)
            else
              let base_parts0 := splitOnC '/' b.path
              let base_parts :=
                if base_parts0.getLast? ≠ some [] then base_parts0.dropLast
                else base_parts0
              let segments :=
                if u.path.take 1 = ['/'] then splitOnC '/' u.path
                else filterMiddle (base_parts ++ splitOnC '/' u.path)
              let resolved :=
                if segments.getLast? = some (ofS ".") ∨
                    segments.getLast? = some (ofS "..") then
                  resolveSegs segments ++ [[]]
                else resolveSegs segments
              let rp := joinWith '/' resolved
              some (urlunparseF u.scheme netloc (if rp = [] then ofS "/" else rp)
                u.params u.query u.fragment)

example : urljoin BASE_URL (ofS "/listing/1001")
    = some (ofS "https://www.kilimall.co.ke/listing/1001") := by decide
example : urljoin BASE_URL (ofS "listing/1001")
    = some (ofS "https://www.kilimall.co.ke/listing/1001") := by decide
example : urljoin BASE_URL (ofS "https://other.host/x")
    = some (ofS "https://other.host/x") := by decide
example : urljoin (ofS "https://h/a/b/c") (ofS "../d")
    = some (ofS "https://h/a/d") := by decide
example : urljoin BASE_URL (ofS "/listing/1?src=https://x/y?z=1")
    = some (ofS "https://www.kilimall.co.ke/listing/1?src=https://x/y?z=1") := by
  decide


/-! ## HTML parsing (`BeautifulSoup(html, "html.parser")`)

The tokenizer follows CPython's `html.parser` on the well-formed
fragments the theorems use: start tags with quoted/unquoted attribute
values, end tags, text runs, void elements.  Comments, doctypes,
script/style CDATA content and character references do not occur in
any input a theorem touches. -/

/-- Whitespace inside a tag (`html.parser`: space, tab, LF, CR, FF). -/
def htmlWs (c : Char) : Bool :=
  c = ' ' ∨ c = '\t' ∨ c = '\n' ∨ c = '\r' ∨ c = Char.ofNat 12

/-- One HTML token. -/
inductive Tok where
  | topen (tag : Str) (attrs : List (Str × Str)) (selfClose : Bool)
  | tclose (tag : Str)
  | ttext (s : Str)
deriving DecidableEq

/-- Attribute list of a start tag (`attrfind_tolerant`): names are
lowercased; values may be double-quoted, single-quoted or bare; a name
without `=` gets the empty value.  Returns the attributes, the
self-closing flag and the input after the closing `>`. -/
def parseAttrs : Nat → Str → (List (Str × Str) × Bool × Str)
  | 0, s => ([], false, s)
  | f + 1, s0 =>
    let s := s0.dropWhile htmlWs
    match s with
    | [] => ([], false, [])
    | '>' :: r => ([], false, r)
    | '/' :: r =>
      (match r with
      | '>' :: r2 => ([], true, r2)
      | _ => parseAttrs f r)
    | _ =>
      let name := s.takeWhile (fun d => ¬(htmlWs d ∨ d = '/' ∨ d = '=' ∨ d = '>'))
      let s1 := (s.drop name.length).dropWhile htmlWs
      match s1 with
      | '=' :: r =>
        let r1 := r.dropWhile htmlWs
        (match r1 with
        | '"' :: r2 =>
          let v := r2.takeWhile (· ≠ '"')
          let res := parseAttrs f ((r2.dropWhile (· ≠ '"')).drop 1)
          ((toLowerS name, v) :: res.1, res.2)
        | '\'' :: r2 =>
          let v := r2.takeWhile (· ≠ '\'')
          let res := parseAttrs f ((r2.dropWhile (· ≠ '\'')).drop 1)
          ((toLowerS name, v) :: res.1, res.2)
        | _ =>
          let v := r1.takeWhile (fun d => ¬(htmlWs d ∨ d = '>'))
          let res := parseAttrs f (r1.drop v.length)
          ((toLowerS name, v) :: res.1, res.2))
      | _ =>
        let res := parseAttrs f s1
        ((toLowerS name, []) :: res.1, res.2)

/-- Fueled HTML tokenizer. -/
def tokenize : Nat → Str → List Tok
  | 0, _ => []
  | _ + 1, [] => []
  | f + 1, c :: rest =>
    if c = '<' then
      match rest with
      | '/' :: r2 =>
        let name := r2.takeWhile (fun d => ¬(htmlWs d ∨ d = '>'))
        let rem := ((r2.drop name.length).dropWhile (· ≠ '>')).drop 1
        Tok.tclose (toLowerS name) :: tokenize f rem
      | d :: _ =>
        if d.isAlpha then
          let name := rest.takeWhile (fun e => ¬(htmlWs e ∨ e = '/' ∨ e = '>'))
          let pa := parseAttrs (rest.length + 1) (rest.drop name.length)
          Tok.topen (toLowerS name) pa.1 pa.2.1 :: tokenize f pa.2.2
        else Tok.ttext ['<'] :: tokenize f rest
      | [] => [Tok.ttext ['<']]
    else
      let tx := (c :: rest).takeWhile (· ≠ '<')
      Tok.ttext tx :: tokenize f ((c :: rest).dropWhile (· ≠ '<'))

/-- One node of the flattened document: nodes are stored in document
(preorder) order, a node's id is its index, and `parent` is the id of
the enclosing element (`none` for a top-level node, whose parent is
the `BeautifulSoup` object itself). -/
structure DomNode where
  parent : Option Nat
  isText : Bool
  tag : Str
  attrs : List (Str × Str)
  txt : Str
deriving DecidableEq

/-- A parsed document. -/
abbrev Doc : Type := List DomNode

/-- Tags `BeautifulSoup`'s html.parser builder treats as empty
(`HTMLTreeBuilder.empty_element_tags`, the HTML void elements). -/
def voidTags : List Str :=
  [ofS "area", ofS "base", ofS "br", ofS "col", ofS "embed", ofS "hr",
   ofS "img", ofS "input", ofS "keygen", ofS "link", ofS "menuitem",
   ofS "meta", ofS "param", ofS "source", ofS "track", ofS "wbr"]

/-- Build the flat document from the token stream.  The stack holds the
ids and tags of the open elements (innermost first); an end tag pops to
the most recent matching open element and is ignored when none matches
(`Tag._popToTag`). -/
def buildFlat : List Tok → List (Nat × Str) → List DomNode → List DomNode
  | [], _, acc => acc.reverse
  | Tok.ttext s :: ts, st, acc =>
    buildFlat ts st (⟨(st.head?).map (·.1), true, [], [], s⟩ :: acc)
  | Tok.topen t a sc :: ts, st, acc =>
    let n : DomNode := ⟨(st.head?).map (·.1), false, t, a, []⟩
    if sc ∨ voidTags.contains t then buildFlat ts st (n :: acc)
    else buildFlat ts ((acc.length, t) :: st) (n :: acc)
  | Tok.tclose t :: ts, st, acc =>
    if st.any (·.2 = t) then buildFlat ts ((st.dropWhile (·.2 ≠ t)).drop 1) acc
    else buildFlat ts st acc

/-- `BeautifulSoup(html, "html.parser")` as a flat document. -/
def parseDoc (html : Str) : Doc := buildFlat (tokenize (html.length + 1) html) [] []

example : parseDoc (ofS "<div class=\"product-title\">Widget X (12)<div><a href=\"/listing/1001\" title=\"\">KSh 1,200</a></div></div>")
    = [⟨none, false, ofS "div", [(ofS "class", ofS "product-title")], []⟩,
       ⟨some 0, true, [], [], ofS "Widget X (12)"⟩,
       ⟨some 0, false, ofS "div", [], []⟩,
       ⟨some 2, false, ofS "a",
        [(ofS "href", ofS "/listing/1001"), (ofS "title", [])], []⟩,
       ⟨some 3, true, [], [], ofS "KSh 1,200"⟩] := by decide

example : parseDoc (ofS "just text, no markup") =
    [⟨none, true, [], [], ofS "just text, no markup"⟩] := by decide

example : parseDoc [] = [] := by decide

example : parseDoc (ofS "<p>a<img src='x'>b</p>")
    = [⟨none, false, ofS "p", [], []⟩,
       ⟨some 0, true, [], [], ofS "a"⟩,
       ⟨some 0, false, ofS "img", [(ofS "src", ofS "x")], []⟩,
       ⟨some 0, true, [], [], ofS "b"⟩] := by decide


/-! ## DOM queries (`bs4` navigation and `soupsieve` selectors) -/

/-- `attrs` lookup; duplicate attribute names: the later one wins
(bs4's default `on_duplicate_attribute` replaces). -/
def getAttrD (n : DomNode) (k : Str) : Option Str :=
  (n.attrs.reverse.find? (fun kv => kv.1 = k)).map (·.2)

/-- `node.get(k, "")` / `node.get(k) or ""`. -/
def attrStrD (n : DomNode) (k : Str) : Str := (getAttrD n k).getD []

/-- Proper ancestor ids of node `j`, nearest first (the `.parent`
chain); fueled by the chain length bound. -/
def ancestorsD (d : Doc) : Nat → Nat → List Nat
  | 0, _ => []
  | f + 1, j =>
    match d.get? j with
    | some n =>
      (match n.parent with
      | some p => p :: ancestorsD d f p
      | none => [])
    | none => []

/-- Proper ancestor ids of `j` in `d`. -/
def ancestorIds (d : Doc) (j : Nat) : List Nat := ancestorsD d d.length j

/-- The ids below a root reference (`none` = the soup itself) in
document order; a node is never its own descendant. -/
def nodesUnder (d : Doc) (r : Option Nat) : List Nat :=
  (List.range d.length).filter fun j =>
    match r with
    | none => true
    | some i => (ancestorIds d j).contains i

/-- `node.parent` as a step on references (`none` = the soup):
`some r'` is the parent reference, `none` means there is no parent
(the soup's own parent, `None` in Python). -/
def parentRef (d : Doc) : Option Nat → Option (Option Nat)
  | none => none
  | some j =>
    match d.get? j with
    | some n => some n.parent
    | none => none

/-- `get_text(sep, strip)`: the text-node strings below the root in
document order, optionally stripped and blank-dropped, joined. -/
def getTextSep (d : Doc) (r : Option Nat) (sep : Str) (strip : Bool) : Str :=
  let pieces := (nodesUnder d r).filterMap fun j =>
    match d.get? j with
    | some n => if n.isText then some (if strip then pyStrip n.txt else n.txt)
                else none
    | none => none
  joinStr sep (if strip then pieces.filter (· ≠ []) else pieces)

/-- The `class` attribute as bs4's multi-valued token list. -/
def classTokens (n : DomNode) : List Str := splitWsF (attrStrD n (ofS "class"))

/-- Substring test (Python `in` on strings). -/
def isInfixB (p : Str) : Str → Bool
  | [] => p.isPrefixOf []
  | c :: t => p.isPrefixOf (c :: t) || isInfixB p t

/-- The CSS selectors the scrapers use. -/
inductive Sel where
  | tagAttrStarts (tag attr v : Str)
  | tagAttrSub (tag attr v : Str)
  | attrSub (attr v : Str)
  | tagIs (t : Str)
  | classIs (c : Str)

/-- Attribute value as soupsieve sees it in an attribute selector:
the multi-valued `class` is re-joined with single spaces. -/
def attrValForMatch (n : DomNode) (a : Str) : Option Str :=
  if a = ofS "class" then
    (getAttrD n a).map (fun _ => joinWith ' ' (classTokens n))
  else getAttrD n a

/-- Does element `j` of `d` match the selector? -/
def matchesSel (d : Doc) (j : Nat) (s : Sel) : Bool :=
  match d.get? j with
  | none => false
  | some n =>
    if n.isText then false
    else
      match s with
      | Sel.tagAttrStarts t a v =>
        decide (n.tag = t) && (match attrValForMatch n a with
          | some w => decide (v ≠ []) && v.isPrefixOf w
          | none => false)
      | Sel.tagAttrSub t a v =>
        decide (n.tag = t) && (match attrValForMatch n a with
          | some w => decide (v ≠ []) && isInfixB v w
          | none => false)
      | Sel.attrSub a v =>
        (match attrValForMatch n a with
        | some w => decide (v ≠ []) && isInfixB v w
        | none => false)
      | Sel.tagIs t => decide (n.tag = t)
      | Sel.classIs c => (classTokens n).contains c

/-- `node.select(...)` for a comma-group of simple selectors: matching
strict descendants of the root reference, in document order. -/
def selectD (d : Doc) (r : Option Nat) (ss : List Sel) : List Nat :=
  (nodesUnder d r).filter fun j => ss.any (matchesSel d j)

/-- `node.select_one(...)`. -/
def selectOneD (d : Doc) (r : Option Nat) (ss : List Sel) : Option Nat :=
  (selectD d r ss).head?

example : selectD (parseDoc (ofS "<div class=\"product-title\">Widget X (12)<div><a href=\"/listing/1001\" title=\"\">KSh 1,200</a></div></div>"))
    none [Sel.tagAttrStarts (ofS "a") (ofS "href") (ofS "/listing/")] = [3] := by
  decide

example : selectD (parseDoc (ofS "<div class=\"product-title\">x<a href=\"/listing/1\">y</a></div>"))
    (some 0) [Sel.attrSub (ofS "class") (ofS "title")] = [] := by decide

example : getTextSep (parseDoc (ofS "<div> Widget <span>X</span>  (12) </div>"))
    (some 0) (ofS " ") true = ofS "Widget X (12)" := by decide

example : getTextSep (parseDoc (ofS "<div> a <b> b1 </b></div>")) (some 0) [] true
    = ofS "ab1" := by decide


/-! ## Title / price regular expressions and `clean_title`
(`kilimall_scraper.py` lines 136–193) -/

/-- `re` whitespace (`\s`) for the ASCII range the inputs use, plus the
common Unicode spaces Python's `str` patterns also match; modelled by
Python's `str.isspace`. -/
def reWsB (c : Char) : Bool := pyIsSpace c

/-- A `PRICE_RE` (`KSh\s*[\d,]+`, case-insensitive) match anchored at
the start of the string: the matched text and the remainder. -/
def priceAt (s : Str) : Option (Str × Str) :=
  if toLowerS (s.take 3) = ofS "ksh" then
    let r := s.drop 3
    let ws := r.takeWhile reWsB
    let r2 := r.drop ws.length
    let ds := r2.takeWhile (fun c => c.isDigit ∨ c = ',')
    if ds = [] then none else some (s.take 3 ++ ws ++ ds, r2.drop ds.length)
  else none

/-- `PRICE_RE.search`: the leftmost match. -/
def priceSearch : Str → Option Str
  | [] => none
  | c :: t =>
    match priceAt (c :: t) with
    | some (m, _) => some m
    | none => priceSearch t

/-- `PRICE_RE.sub("", ·)`: delete every non-overlapping match, left to
right (fueled; every step consumes at least one character). -/
def priceSubAll : Nat → Str → Str
  | 0, s => s
  | _ + 1, [] => []
  | f + 1, c :: t =>
    match priceAt (c :: t) with
    | some (_, rest) => priceSubAll f rest
    | none => c :: priceSubAll f t

/-- Does the whole string match `\s*\(\d+\)\s*` (the body of
`RATING_TAIL_RE` up to its `$`)? -/
def ratingSuffix (s : Str) : Bool :=
  match s.dropWhile reWsB with
  | '(' :: r =>
    let ds := r.takeWhile Char.isDigit
    if ds = [] then false
    else
      (match r.drop ds.length with
      | ')' :: r2 => r2.all reWsB
      | _ => false)
  | _ => false

/-- `RATING_TAIL_RE.sub("", ·)` (`\s*\(\d+\)\s*$`): cut the leftmost
suffix that matches. -/
def ratingCut : Str → Str
  | [] => []
  | c :: t => if ratingSuffix (c :: t) then [] else c :: ratingCut t

/-- `MULTISPACE_RE.sub(" ", ·)`: collapse each whitespace run to one
space (the flag records whether the previous character was whitespace). -/
def msAux : Str → Bool → Str
  | [], _ => []
  | c :: t, inWs =>
    if reWsB c then (if inWs then msAux t true else ' ' :: msAux t true)
    else c :: msAux t false

/-- `MULTISPACE_RE.sub(" ", s)`. -/
def multispaceSub (s : Str) : Str := msAux s false

/-- The characters of `.strip(" -–•|")`. -/
def titleStripChars : Str := ofS " -–•|"

/-- `clean_title` (`kilimall_scraper.py` lines 187–193). -/
def clean_title (title : Str) : Str :=
  if title = [] then []
  else pyStripChars titleStripChars
    (multispaceSub (ratingCut (priceSubAll (title.length + 1) title)))

/-- The inner `ok` of `best_title_for_anchor`: clean, then reject blank,
price-bearing or nearly-letterless strings (Python's `c.isalpha()`;
ASCII in every input used). -/
def okTitle (txt : Str) : Str :=
  let t := clean_title (pyStrip txt)
  if t = [] ∨ (priceSearch t).isSome ∨ (t.filter Char.isAlpha).length < 3 then []
  else t

example : clean_title (ofS "Widget X (12)") = ofS "Widget X" := by decide
example : okTitle (ofS "KSh 1,200") = [] := by decide
example : okTitle (ofS " Nice   Phone – ") = ofS "Nice Phone" := by decide
example : okTitle (ofS "ab") = [] := by decide

/-! ## `best_title_for_anchor` and `parse_product_tiles`
(`kilimall_scraper.py` lines 141–158, 195–307) -/

/-- `A_SELECTORS`. -/
def A_SELS : List Sel :=
  [Sel.tagAttrStarts (ofS "a") (ofS "href") (ofS "/listing/"),
   Sel.tagAttrSub (ofS "a") (ofS "href") (ofS "/listing/"),
   Sel.tagAttrStarts (ofS "a") (ofS "href") (ofS "/item/"),
   Sel.tagAttrSub (ofS "a") (ofS "href") (ofS "/item/"),
   Sel.tagAttrSub (ofS "a") (ofS "href") (ofS "/product/"),
   Sel.tagAttrSub (ofS "a") (ofS "href") (ofS "/detail/"),
   Sel.tagAttrSub (ofS "a") (ofS "href") (ofS "/goods/")]

/-- `TITLE_CANDIDATE_SELECTORS`. -/
def TITLE_SELS : List Sel :=
  [Sel.attrSub (ofS "class") (ofS "title"),
   Sel.attrSub (ofS "class") (ofS "name"),
   Sel.attrSub (ofS "class") (ofS "goods"),
   Sel.attrSub (ofS "class") (ofS "pro"),
   Sel.tagIs (ofS "h1"), Sel.tagIs (ofS "h2"), Sel.tagIs (ofS "h3"),
   Sel.tagIs (ofS "p"), Sel.tagIs (ofS "span")]

/-- Strict code-point lexicographic order on strings (Python `<`). -/
def lexLtB : Str → Str → Bool
  | [], [] => false
  | [], _ :: _ => true
  | _ :: _, [] => false
  | a :: x, b :: y => if a < b then true else if b < a then false else lexLtB x y

/-- Is `x` strictly better than `best` under the sort key
`(-len(s), s)`? -/
def titleBetter (x best : Str) : Bool :=
  decide (best.length < x.length) ||
    (decide (x.length = best.length) && lexLtB x best)

/-- `cands.sort(key=lambda s: (-len(s), s)); cands[0]`. -/
def pickBest : List Str → Str
  | [] => []
  | c :: t => t.foldl (fun best x => if titleBetter x best then x else best) c

/-- Step 3 of `best_title_for_anchor`: first acceptable `alt`/`title`
of the images inside the anchor. -/
def imgTitle (d : Doc) : List Nat → Str
  | [] => []
  | i :: rest =>
    let v :=
      match d.get? i with
      | some n =>
        let al := attrStrD n (ofS "alt")
        if al ≠ [] then al else attrStrD n (ofS "title")
      | none => []
    let t := okTitle v
    if t ≠ [] then t else imgTitle d rest

/-- Step 4 of `best_title_for_anchor`: walk anchor → parent →
grandparent, harvesting candidate texts under each (`node.select`
searches descendants only), longest-then-lexicographic winner. -/
def titleNear (d : Doc) : Nat → Option (Option Nat) → Str
  | 0, _ => []
  | _ + 1, none => []
  | k + 1, some r =>
    let cands := TITLE_SELS.flatMap fun sel =>
      (selectD d r [sel]).filterMap fun e =>
        let t := okTitle (getTextSep d (some e) (ofS " ") true)
        if t ≠ [] then some t else none
    if cands ≠ [] then pickBest cands
    else titleNear d k (parentRef d r)

/-- The data-attribute keywords of step 5. -/
def titleKwList : List Str :=
  [ofS "title", ofS "name", ofS "goods", ofS "label", ofS "alt"]

/-- Step 5 of `best_title_for_anchor`: scan the anchor's attributes in
document order; the multi-valued `class` is not a string in Python and
is skipped. -/
def attrsTitle : List (Str × Str) → Str
  | [] => []
  | (k, v) :: rest =>
    if k ≠ ofS "class" ∧ titleKwList.any (fun kw => isInfixB kw (toLowerS k)) then
      let t := okTitle v
      if t ≠ [] then t else attrsTitle rest
    else attrsTitle rest

/-- `best_title_for_anchor` (`kilimall_scraper.py` lines 195–254). -/
def best_title_for_anchor (d : Doc) (a : Nat) : Str :=
  let attrs := match d.get? a with | some n => n.attrs | none => []
  let n0 : DomNode := (d.get? a).getD ⟨none, true, [], [], []⟩
  let t1 := okTitle (attrStrD n0 (ofS "title"))
  if t1 ≠ [] then t1
  else
    let t2 := okTitle (attrStrD n0 (ofS "aria-label"))
    if t2 ≠ [] then t2
    else
      let t3 := okTitle (getTextSep d (some a) (ofS " ") true)
      if t3 ≠ [] then t3
      else
        let t4 := imgTitle d (selectD d (some a) [Sel.tagIs (ofS "img")])
        if t4 ≠ [] then t4
        else
          let t5 := titleNear d 3 (some (some a))
          if t5 ≠ [] then t5
          else attrsTitle attrs

/-- The price climb of `parse_product_tiles` (8 levels of
`" ".join(node.stripped_strings)` against `PRICE_RE`). -/
def priceClimb (d : Doc) : Nat → Option (Option Nat) → Str
  | 0, _ => []
  | _ + 1, none => []
  | k + 1, some r =>
    match priceSearch (getTextSep d r (ofS " ") true) with
    | some m => pyStrip m
    | none => priceClimb d k (parentRef d r)

/-- One output row of `parse_product_tiles`. -/
structure Tile where
  product_title : Str
  product_url : Str
  listing_id : Str
  price : Str
deriving DecidableEq

/-- `href`/`data-href`/`data-url` fallback plus `.strip()`. -/
def hrefOf (d : Doc) (a : Nat) : Str :=
  match d.get? a with
  | none => []
  | some n =>
    let h1 := attrStrD n (ofS "href")
    pyStrip (if h1 ≠ [] then h1
      else
        let h2 := attrStrD n (ofS "data-href")
        if h2 ≠ [] then h2 else attrStrD n (ofS "data-url"))

/-- The anchor loop of `parse_product_tiles`: href fallback chain,
`javascript:`/`#` filter, `seen_hrefs` dedup, `urljoin`, title, listing
id, price climb.  `none` models an exception escaping `urljoin` or
`urlparse`. -/
def tilesLoop (d : Doc) : List Nat → List Str → Option (List Tile)
  | [], _ => some []
  | a :: rest, seen =>
    let href := hrefOf d a
    if href = [] ∨ (ofS "javascript:").isPrefixOf href ∨ href = ['#'] ∨
        seen.contains href then
      tilesLoop d rest seen
    else
      match urljoin BASE_URL href with
      | none => none
      | some full =>
        match extract_listing_id full with
        | none => none
        | some lid =>
          match tilesLoop d rest (href :: seen) with
          | none => none
          | some ts =>
            some (⟨best_title_for_anchor d a, full, lid,
              priceClimb d 8 (some (some a))⟩ :: ts)

/-- `parse_product_tiles` (`kilimall_scraper.py` lines 256–307):
anchors of all seven selectors, deduplicated by element identity. -/
def parse_product_tiles (html : Str) : Option (List Tile) :=
  let d := parseDoc html
  tilesLoop d (dedupL (A_SELS.flatMap fun s => selectD d none [s])) []

example : parse_product_tiles [] = some [] := by decide

example : parse_product_tiles (ofS "<div class=\"product-title\">Widget X (12)<div><a href=\"/listing/1001\" title=\"\">KSh 1,200</a></div></div>")
    = some [⟨[], ofS "https://www.kilimall.co.ke/listing/1001", ofS "1001",
        ofS "KSh 1,200"⟩] := by decide


/-! ## `parse_products` (`kilimall_scraper_optimized.py` lines 104–157) -/

/-- One record of the optimized extractor. -/
structure OptRecord where
  product_url : Str
  title : Str
  price : Str
deriving DecidableEq

/-- The container-class indicators. -/
def containerKws : List Str :=
  [ofS "product", ofS "item", ofS "listing", ofS "goods"]

/-- The container walk: up to 5 steps of `container = container.parent`,
stopping early at a missing parent or at an element whose joined,
lowercased class list contains one of the indicators.  References:
`some i` is element `i`, `none` is the soup. -/
def walkUp (d : Doc) : Nat → Option Nat → Option Nat
  | 0, c => c
  | k + 1, c =>
    match parentRef d c with
    | none => c
    | some c2 =>
      let classes := toLowerS (joinWith ' '
        (match c2 with
         | some j => (d.get? j).elim [] classTokens
         | none => []))
      if containerKws.any (fun w => isInfixB w classes) then c2
      else walkUp d k c2

/-- The title-element selector of `parse_products`. -/
def optTitleSels : List Sel :=
  [Sel.classIs (ofS "product-title"), Sel.classIs (ofS "title"),
   Sel.attrSub (ofS "class") (ofS "title"),
   Sel.attrSub (ofS "class") (ofS "name")]

/-- The price-element selector of `parse_products`. -/
def optPriceSels : List Sel :=
  [Sel.classIs (ofS "product-price"), Sel.classIs (ofS "price"),
   Sel.attrSub (ofS "class") (ofS "price")]

/-- The title chain of `parse_products` for one anchor: `title` /
`aria-label` attribute, then the anchor's own text, then the container's
title element. -/
def optTitleOf (d : Doc) (a : Nat) : Str :=
  let n0 : DomNode := (d.get? a).getD ⟨none, true, [], [], []⟩
  let ta := attrStrD n0 (ofS "title")
  let t0 := if ta ≠ [] then ta else attrStrD n0 (ofS "aria-label")
  let t1 := if t0 = [] then getTextSep d (some a) [] true else t0
  if t1 = [] then
    (match selectOneD d (walkUp d 5 (some a)) optTitleSels with
    | some e => getTextSep d (some e) [] true
    | none => [])
  else t1

/-- The price of `parse_products` for one anchor: the container's first
price element. -/
def optPriceOf (d : Doc) (a : Nat) : Str :=
  match selectOneD d (walkUp d 5 (some a)) optPriceSels with
  | some e => getTextSep d (some e) [] true
  | none => []

/-- The anchor loop of `parse_products`: only anchors with a resolvable
title produce a record (`if title:`). -/
def prodLoop (d : Doc) : List Nat → Option (List OptRecord)
  | [] => some []
  | a :: rest =>
    let n0 : DomNode := (d.get? a).getD ⟨none, true, [], [], []⟩
    let href := pyStrip (attrStrD n0 (ofS "href"))
    if href = [] then prodLoop d rest
    else
      match urljoin BASE_URL href with
      | none => none
      | some purl =>
        match prodLoop d rest with
        | none => none
        | some rs =>
          some (if optTitleOf d a ≠ [] then
            ⟨purl, optTitleOf d a, optPriceOf d a⟩ :: rs else rs)

/-- `parse_products` (`kilimall_scraper_optimized.py` lines 104–157). -/
def parse_products (html : Str) : Option (List OptRecord) :=
  if html = [] then some []
  else
    let d := parseDoc html
    prodLoop d (selectD d none [Sel.tagAttrStarts (ofS "a") (ofS "href") (ofS "/listing/")])

example : parse_products (ofS "<div><a href=\"/listing/77\"></a></div>")
    = some [] := by decide

example : parse_products (ofS "<div class=\"item-box\"><a href=\"/listing/9\" title=\"Tele Phone Pro\">x</a><span class=\"price\">KSh 999</span></div>")
    = some [⟨ofS "https://www.kilimall.co.ke/listing/9", ofS "Tele Phone Pro",
        ofS "KSh 999"⟩] := by decide


/-! ## The pagination loops
(`kilimall_scraper.py` lines 312–393, `kilimall_scraper_optimized.py`
lines 160–209).  `fetch` is an oracle `Str → Str`; the real `fetch`
returns the body, or `None`/`""` on failure, and both falsy values take
the same `continue` branch, so `""` models failure. -/

/-- `MAX_PAGES_PER_STORE` (line 35). -/
def MAX_PAGES_PER_STORE : Nat := 400

/-- `MAX_EMPTY_PAGES` (line 36). -/
def MAX_EMPTY_PAGES : Nat := 3

/-- The seven URL variants of one page index. -/
def subpageVariants (base : Str) (idx : Nat) : List Str :=
  [base ++ ofS "?typeName=All+Products&pageNum=" ++ natStr idx,
   base ++ ofS "?typeName=All+Products&page=" ++ natStr idx,
   base ++ ofS "?typeName=All+Products&pageNo=" ++ natStr idx,
   base ++ ofS "?pageNum=" ++ natStr idx ++ ofS "&typeName=All+Products",
   base ++ ofS "?typeName=All+Products&pageNum=" ++ natStr idx ++ ofS "&pageSize=36",
   base ++ ofS "?typeName=All+Products&pageNum=" ++ natStr idx ++ ofS "&pageSize=32",
   base ++ ofS "?typeName=All+Products&pageNum=" ++ natStr idx ++ ofS "&pageSize=48"]

/-- `subpage_candidates(store_id, page)` (lines 312–342): zero- and
one-based index variants, first occurrence kept (the `tried` set). -/
def subpage_candidates (sid : Str) (page : Nat) : List Str :=
  let base := BASE_URL ++ ofS "/new/store/sub-page/" ++ sid
  let idxs := if page = 1 then [0, 1] else [page - 1, page]
  dedupL (idxs.flatMap (subpageVariants base))

example : (subpage_candidates (ofS "77") 1).length = 14 := by decide
example : (subpage_candidates (ofS "77") 3).length = 14 := by decide

/-- The state of one `scrape_by_store_id` session: collected items, the
`seen_paths` set of canonical URLs, and the number of `fetch` calls. -/
structure MainState where
  items : List Tile
  seen : List Str
  fetched : Nat
deriving DecidableEq

/-- The per-batch loop (lines 365–373): canonicalize, drop tiles whose
canonical URL is already seen, rewrite `product_url` to the canonical
form; the seen-set grows even when the page is later judged empty.
`none` models a `ValueError` from `urlparse`. -/
def procBatch (seen : List Str) : List Tile → Option (List Tile × List Str)
  | [] => some ([], seen)
  | it :: rest =>
    match canonical_product_url it.product_url with
    | none => none
    | some canon =>
      if seen.contains canon then procBatch seen rest
      else
        match procBatch (canon :: seen) rest with
        | none => none
        | some (new, seen') =>
          some ({ it with product_url := canon } :: new, seen')

/-- The candidate-URL loop of one page (lines 358–379): fetch each
variant, skip empty bodies, decode and parse, and stop at the first
variant that yields new records.  Returns the new state and the
`got_new` flag. -/
def tryUrls (fetch : Str → Str) : List Str → MainState → Option (MainState × Bool)
  | [], st => some (st, false)
  | u :: us, st =>
    let st1 : MainState := { st with fetched := st.fetched + 1 }
    let body := fetch u
    if body = [] then tryUrls fetch us st1
    else
      match parse_product_tiles (decode_html_from_json body) with
      | none => none
      | some batch =>
        match procBatch st1.seen batch with
        | none => none
        | some (new, seen') =>
          let st2 : MainState := { st1 with seen := seen' }
          if new ≠ [] then some ({ st2 with items := st2.items ++ new }, true)
          else tryUrls fetch us st2

/-- The page loop of `scrape_by_store_id` (lines 353–388), fueled by
the number of pages that may still run. -/
def sessLoop (fetch : Str → Str) (sid : Str) :
    Nat → Nat → Nat → MainState → Option MainState
  | _, _, 0, st => some st
  | page, streak, fuel + 1, st =>
    if page ≤ MAX_PAGES_PER_STORE ∧ streak < MAX_EMPTY_PAGES then
      match tryUrls fetch (subpage_candidates sid page) st with
      | none => none
      | some (st', got) =>
        sessLoop fetch sid (page + 1) (if got then 0 else streak + 1) fuel st'
    else some st

/-- `scrape_by_store_id` (lines 344–393) for one store id. -/
def scrape_by_store_id (fetch : Str → Str) (sid : Str) : Option MainState :=
  sessLoop fetch sid 1 0 (MAX_PAGES_PER_STORE + 1) ⟨[], [], 0⟩

/-- The state of one `scrape_store_optimized` run: the `all_products`
raw-URL set, the output rows, and the number of `fetch` calls. -/
structure OState where
  all : List Str
  rows : List OptRecord
  fetched : Nat
deriving DecidableEq

/-- The per-page product loop (lines 190–195): dedup by the *raw*
absolute URL, count the new ones. -/
def addProducts : OState → List OptRecord → Nat × OState
  | st, [] => (0, st)
  | st, p :: ps =>
    if st.all.contains p.product_url then addProducts st ps
    else
      let st' : OState :=
        { st with all := p.product_url :: st.all, rows := st.rows ++ [p] }
      let r := addProducts st' ps
      (r.1 + 1, r.2)

/-- The value loop of one strategy (lines 180–203): fetch, parse, add;
break when a non-first value yields nothing new. -/
def valuesLoop (fetch : Str → Str) (storeUrl : Str) (pat : Nat → Str)
    (first : Nat) : List Nat → OState → Option OState
  | [], st => some st
  | v :: vs, st =>
    let url := storeUrl ++ pat v
    let st1 : OState := { st with fetched := st.fetched + 1 }
    match parse_products (fetch url) with
    | none => none
    | some products =>
      let r := addProducts st1 products
      if r.1 = 0 ∧ v ≠ first then some r.2
      else valuesLoop fetch storeUrl pat first vs r.2

/-- One pagination strategy: name, URL-suffix pattern, value list. -/
abbrev Strategy : Type := Str × (Nat → Str) × List Nat

/-- `PAGINATION_STRATEGIES` (lines 25–32), with `range(1, n+1)` already
expanded for the non-list budgets. -/
def PAGINATION_STRATEGIES : List Strategy :=
  [(ofS "pageNo", fun v => ofS "?pageNo=" ++ natStr v, [1, 2, 3, 4]),
   (ofS "price_desc", fun v => ofS "?sort=price_desc&page=" ++ natStr v, [1, 2, 3]),
   (ofS "sales", fun v => ofS "?sort=sales&page=" ++ natStr v, [1, 2, 3]),
   (ofS "pageNum", fun v => ofS "?pageNum=" ++ natStr v, [1, 2, 3, 4]),
   (ofS "offset", fun v => ofS "?offset=" ++ natStr v, [0, 32, 64, 96])]

/-- The strategy loop (lines 168–206). -/
def stratLoop (fetch : Str → Str) (storeUrl : Str) :
    List Strategy → OState → Option OState
  | [], st => some st
  | (_, pat, values) :: rest, st =>
    match values with
    | [] => stratLoop fetch storeUrl rest st
    | v0 :: vrest =>
      match valuesLoop fetch storeUrl pat v0 values st with
      | none => none
      | some st' => stratLoop fetch storeUrl rest st'

/-- `scrape_store_optimized` (lines 160–209) for one store path, over a
given strategy list (the shipped list is `PAGINATION_STRATEGIES`). -/
def scrapeOptWith (strategies : List Strategy) (fetch : Str → Str)
    (storePath : Str) : Option OState :=
  match urljoin BASE_URL storePath with
  | none => none
  | some storeUrl => stratLoop fetch storeUrl strategies ⟨[], [], 0⟩

/-- `scrape_store_optimized` with the shipped configuration. -/
def scrape_store_optimized (fetch : Str → Str) (storePath : Str) : Option OState :=
  scrapeOptWith PAGINATION_STRATEGIES fetch storePath

example : scrape_store_optimized (fun _ => []) (ofS "/store/JK")
    = some ⟨[], [], 10⟩ := by decide


/-! ## Claim C6: totality on malformed input -/

/-- The JSON envelope with no recognizable HTML field used by C6. -/
def statusEnvelope : Str := ofS "\x7b\"status\": 1, \"count\": 2\x7d"

/-- A non-HTML garbage input used by C6. -/
def garbageInput : Str := ofS "random garbage ::: 12345 ??!! not a page at all"

/-- C6: the tile extractor is total on malformed input: on the empty
string, on non-HTML garbage text and on a JSON envelope with no
recognizable HTML field it returns the empty list (and, in the model,
`some` rather than the `none` that stands for an exception). -/
theorem extractor_total_on_malformed :
    parse_product_tiles (decode_html_from_json []) = some [] ∧
    parse_product_tiles (decode_html_from_json garbageInput) = some [] ∧
    parse_product_tiles (decode_html_from_json statusEnvelope) = some [] := by
  refine ⟨by decide, by decide, by decide⟩

/-! ## Claim C8: Scenario B resolution -/

/-- The Scenario B page: the anchor's ancestor two levels up carries
`class="product-title"` with the text `Widget X (12)`. -/
def scenarioBPage : Str :=
  ofS "<div class=\"product-title\">Widget X (12)<div><a href=\"/listing/1001\" title=\"\">KSh 1,200</a></div></div>"

/-- C8 (amended): on the Scenario B page the extractor resolves the
price to `KSh 1,200` and the listing id to `1001`, but the title to the
EMPTY string, not `Widget X`: every stage of `best_title_for_anchor`
fails — in particular stage 4 calls `node.select(...)`, which searches
strict descendants only, so the `product-title` class on the ancestor
itself is never examined. -/
theorem scenario_b_resolution :
    parse_product_tiles scenarioBPage
      = some [⟨[], ofS "https://www.kilimall.co.ke/listing/1001", ofS "1001",
          ofS "KSh 1,200"⟩] := by decide

/-- C8 counterexample: the resolved title list is not `["Widget X"]`. -/
theorem scenario_b_resolution_cex :
    (parse_product_tiles scenarioBPage).map (fun l => l.map (·.product_title))
      ≠ some [ofS "Widget X"] := by decide

/-! ## Claim C10: the optimized extractor drops titleless anchors -/

/-- A page whose only listing anchor has no resolvable title. -/
def titlelessPage : Str := ofS "<div><a href=\"/listing/77\"></a></div>"

/-- Helper for C10: every record the optimized anchor loop emits has a
non-empty title (`if title:`). -/
theorem prodLoop_titled (d : Doc) :
    ∀ (l : List Nat) (recs : List OptRecord) (r : OptRecord),
      prodLoop d l = some recs → r ∈ recs → r.title ≠ [] := by
  intro l
  induction l with
  | nil =>
    intro recs r h hr
    simp only [prodLoop] at h
    obtain rfl : ([] : List OptRecord) = recs := by simpa using h
    simp at hr
  | cons a rest ih =>
    intro recs r h hr
    simp only [prodLoop] at h
    split at h
    · exact ih recs r h hr
    · split at h
      · exact Option.noConfusion h
      · next purl hurl =>
        split at h
        · exact Option.noConfusion h
        · next rs hrs =>
          obtain rfl : _ = recs := by simpa using h
          by_cases ht : optTitleOf d a = []
          · rw [if_pos ht] at hr
            exact ih rs r hrs hr
          · rw [if_neg ht] at hr
            rcases List.mem_cons.mp hr with rfl | hmem
            · exact ht
            · exact ih rs r hrs hmem

/-- C10: every record `parse_products` emits has a non-empty title; and
a page can contain a matching listing anchor yet produce no record at
all, because no title could be resolved for it. -/
theorem opt_title_filter :
    (∀ (html : Str) (recs : List OptRecord) (r : OptRecord),
        parse_products html = some recs → r ∈ recs → r.title ≠ []) ∧
    (selectD (parseDoc titlelessPage) none
        [Sel.tagAttrStarts (ofS "a") (ofS "href") (ofS "/listing/")] ≠ [] ∧
      parse_products titlelessPage = some []) := by
  constructor
  · intro html recs r h hr
    by_cases hh : html = []
    · subst hh
      simp only [parse_products, if_pos rfl] at h
      obtain rfl : ([] : List OptRecord) = recs := by simpa using h
      simp at hr
    · simp only [parse_products, if_neg hh] at h
      exact prodLoop_titled _ _ recs r h hr
  · exact ⟨by decide, by decide⟩

/-- C10 witness: the concrete record of a titled page has a non-empty
title via the theorem. -/
theorem opt_title_filter_witness :
    (⟨ofS "https://www.kilimall.co.ke/listing/9", ofS "Tele Phone Pro",
        ofS "KSh 999"⟩ : OptRecord).title ≠ [] :=
  opt_title_filter.1
    (ofS "<div class=\"item-box\"><a href=\"/listing/9\" title=\"Tele Phone Pro\">x</a><span class=\"price\">KSh 999</span></div>")
    [⟨ofS "https://www.kilimall.co.ke/listing/9", ofS "Tele Phone Pro",
        ofS "KSh 999"⟩] _ (by decide) (by decide)

/-! ## Claim C3: novelty-gated exhaustion of a strategy -/

/-- Helper for C3: a batch of already-seen URLs adds nothing. -/
theorem addProducts_seen (st : OState) :
    ∀ (ps : List OptRecord), (∀ p ∈ ps, p.product_url ∈ st.all) →
      addProducts st ps = (0, st) := by
  intro ps
  induction ps with
  | nil => intro _; rfl
  | cons p rest ih =>
    intro hall
    have hp : p.product_url ∈ st.all := hall p (List.mem_cons_self _ _)
    simp only [addProducts]
    rw [if_pos (by simpa using hp)]
    exact ih (fun q hq => hall q (List.mem_cons_of_mem _ hq))

/-- Helper for C3 (the optimized half): as soon as a non-first page
yields only RAW-seen product URLs, the strategy performs exactly that
one observing fetch, adds no rows, grows no state, and issues no
further requests (`if new_products == 0 and value != values[0]: break`). -/
theorem valuesLoop_rawseen_stop (fetch : Str → Str) (storeUrl : Str)
    (pat : Nat → Str) (first v : Nat) (vs : List Nat) (st : OState)
    (ps : List OptRecord) (hv : v ≠ first)
    (hparse : parse_products (fetch (storeUrl ++ pat v)) = some ps)
    (hseen : ∀ p ∈ ps, p.product_url ∈ st.all) :
    valuesLoop fetch storeUrl pat first (v :: vs) st
      = some { st with fetched := st.fetched + 1 } := by
  simp only [valuesLoop, hparse]
  have haddp : addProducts { st with fetched := st.fetched + 1 } ps
      = (0, { st with fetched := st.fetched + 1 }) :=
    addProducts_seen _ ps hseen
  rw [haddp]
  rw [if_pos ⟨rfl, hv⟩]


/-! ## Claim C2: request budget of a storefront crawl -/

/-- `addProducts` never fetches. -/
theorem addProducts_fetched :
    ∀ (ps : List OptRecord) (st : OState),
      (addProducts st ps).2.fetched = st.fetched := by
  intro ps
  induction ps with
  | nil => intro st; rfl
  | cons p rest ih =>
    intro st
    simp only [addProducts]
    split
    · exact ih st
    · exact ih _

/-- One strategy fetches at most once per configured value. -/
theorem valuesLoop_fetch_bound (fetch : Str → Str) (storeUrl : Str)
    (pat : Nat → Str) (first : Nat) :
    ∀ (vs : List Nat) (st st' : OState),
      valuesLoop fetch storeUrl pat first vs st = some st' →
      st'.fetched ≤ st.fetched + vs.length := by
  intro vs
  induction vs with
  | nil =>
    intro st st' h
    obtain rfl : st = st' := by simpa [valuesLoop] using h
    simp
  | cons v rest ih =>
    intro st st' h
    simp only [valuesLoop] at h
    split at h
    · exact Option.noConfusion h
    · next products hp =>
      have hf : (addProducts { st with fetched := st.fetched + 1 } products).2.fetched
          = st.fetched + 1 := by
        simpa using addProducts_fetched products { st with fetched := st.fetched + 1 }
      split at h
      · obtain rfl : _ = st' := by simpa using h
        simp only [List.length_cons, hf]
        omega
      · have hb := ih _ _ h
        rw [hf] at hb
        simp only [List.length_cons]
        omega

/-- The total number of configured page values of a strategy list. -/
def stratBudget (ss : List Strategy) : Nat :=
  (ss.map (fun s => s.2.2.length)).sum

/-- The whole crawl fetches at most the sum of the per-strategy
budgets. -/
theorem stratLoop_fetch_bound (fetch : Str → Str) (storeUrl : Str) :
    ∀ (ss : List Strategy) (st st' : OState),
      stratLoop fetch storeUrl ss st = some st' →
      st'.fetched ≤ st.fetched + stratBudget ss := by
  intro ss
  induction ss with
  | nil =>
    intro st st' h
    obtain rfl : st = st' := by simpa [stratLoop] using h
    simp
  | cons s rest ih =>
    intro st st' h
    obtain ⟨name, pat, values⟩ := s
    simp only [stratLoop] at h
    split at h
    · have hb := ih st st' h
      simp only [stratBudget, List.map_cons, List.sum_cons] at hb ⊢
      simpa using hb
    · next x y z =>
      split at h
      · exact Option.noConfusion h
      · next st1 h1 =>
        have hb1 := valuesLoop_fetch_bound fetch storeUrl pat y (y :: z) st st1 h1
        have hb2 := ih st1 st' h
        simp only [stratBudget, List.map_cons, List.sum_cons, List.length_cons]
          at hb1 hb2 ⊢
        omega

/-- C2 (amended): the shipped optimized crawl issues at most 18 fetches
per storefront — the sum of the five per-strategy budgets
(4+3+3+4+4), not a configuration-independent global ceiling: the bound
is derived from the strategy list itself, and growing that list grows
the worst case (see the counterexample). -/
theorem opt_request_budget (fetch : Str → Str) (path : Str) (st : OState)
    (h : scrape_store_optimized fetch path = some st) : st.fetched ≤ 18 := by
  simp only [scrape_store_optimized, scrapeOptWith] at h
  split at h
  · exact Option.noConfusion h
  · have hb := stratLoop_fetch_bound fetch _ PAGINATION_STRATEGIES _ st h
    simpa [stratBudget, PAGINATION_STRATEGIES] using hb

/-- C2 witness: the all-failing fetch crawl issues 10 ≤ 18 requests. -/
theorem opt_request_budget_witness : (10 : Nat) ≤ 18 := by
  have h : scrape_store_optimized (fun _ => []) (ofS "/store/JK")
      = some ⟨[], [], 10⟩ := by decide
  exact opt_request_budget (fun _ => []) (ofS "/store/JK") ⟨[], [], 10⟩ h

/-- A sixth strategy, to show the absence of a global ceiling. -/
def extraStrategy : Strategy :=
  (ofS "extra", fun v => ofS "?extra=" ++ natStr v, [1, 2, 3, 4])

/-- A fetch whose every page carries one never-seen listing URL (the
page echoes the request URL inside the listing link's query). -/
def alwaysFetch : Str → Str := fun url =>
  ofS "<a href=\"/listing/1?src=" ++ url ++ ofS "\" title=\"Product AAA\">x</a>"

/-- C2 counterexample: with one added strategy and productive pages the
same crawl issues 22 > 18 fetches — no configured global request
ceiling caps the total. -/
theorem opt_request_budget_cex :
    (scrapeOptWith (PAGINATION_STRATEGIES ++ [extraStrategy]) alwaysFetch
        (ofS "/store/JK")).map (fun st => st.fetched) = some 22 := by decide


/-! ## Claim C1: the dedup invariant of a discovery session -/

/-- What one batch pass guarantees: the survivors' canonical URLs are
pairwise distinct, each is newly seen, and the seen-set only grows. -/
theorem procBatch_spec :
    ∀ (batch : List Tile) (seen : List Str) (new : List Tile) (seen' : List Str),
      procBatch seen batch = some (new, seen') →
      ((new.map (·.product_url)).Nodup ∧
        (∀ u ∈ new.map (·.product_url), u ∈ seen' ∧ u ∉ seen) ∧
        ∀ u ∈ seen, u ∈ seen') := by
  intro batch
  induction batch with
  | nil =>
    intro seen new seen' h
    simp only [procBatch] at h
    obtain ⟨rfl, rfl⟩ : ([] : List Tile) = new ∧ seen = seen' := by
      constructor <;> [exact congrArg Prod.fst (Option.some.inj h);
        exact congrArg Prod.snd (Option.some.inj h)]
    refine ⟨by simp, by simp, fun u hu => hu⟩
  | cons it rest ih =>
    intro seen new seen' h
    simp only [procBatch] at h
    split at h
    · exact Option.noConfusion h
    · next canon hcanon =>
      split at h
      · next hc => exact ih seen new seen' h
      · next hc =>
        split at h
        · exact Option.noConfusion h
        · next new0 seen0 hrec =>
          obtain ⟨rfl, rfl⟩ : ({ it with product_url := canon } :: new0 = new ∧
              seen0 = seen') := by
            constructor <;> [exact congrArg Prod.fst (Option.some.inj h);
              exact congrArg Prod.snd (Option.some.inj h)]
          obtain ⟨h1, h2, h3⟩ := ih (canon :: seen) new0 seen0 hrec
          have hcmem : canon ∉ seen := by
            intro hmem
            exact hc (by simpa using hmem)
          refine ⟨?_, ?_, ?_⟩
          · rw [List.map_cons, List.nodup_cons]
            refine ⟨fun hmem => ?_, h1⟩
            exact (h2 canon hmem).2 (List.mem_cons_self _ _)
          · intro u hu
            rw [List.map_cons] at hu
            rcases List.mem_cons.mp hu with rfl | hu0
            · exact ⟨h3 _ (List.mem_cons_self _ _), hcmem⟩
            · exact ⟨(h2 u hu0).1, fun hs => (h2 u hu0).2 (List.mem_cons_of_mem _ hs)⟩
          · exact fun u hu => h3 u (List.mem_cons_of_mem _ hu)

/-- The session invariant: the collected items carry pairwise-distinct
canonical URLs, all of them in the seen-set. -/
def MainInv (st : MainState) : Prop :=
  (st.items.map (·.product_url)).Nodup ∧
    ∀ u ∈ st.items.map (·.product_url), u ∈ st.seen

/-- The candidate-URL loop preserves the invariant. -/
theorem tryUrls_inv (fetch : Str → Str) :
    ∀ (urls : List Str) (st st' : MainState) (got : Bool),
      MainInv st → tryUrls fetch urls st = some (st', got) → MainInv st' := by
  intro urls
  induction urls with
  | nil =>
    intro st st' got hi h
    simp only [tryUrls] at h
    obtain rfl : st = st' := congrArg Prod.fst (Option.some.inj h)
    exact hi
  | cons u us ih =>
    intro st st' got hi h
    simp only [tryUrls] at h
    split at h
    · exact ih { st with fetched := st.fetched + 1 } st' got ⟨hi.1, hi.2⟩ h
    · split at h
      · exact Option.noConfusion h
      · next batch hb =>
        split at h
        · exact Option.noConfusion h
        · next new seen' hpb =>
          obtain ⟨hn1, hn2, hn3⟩ := procBatch_spec batch st.seen new seen' hpb
          split at h
          · obtain rfl : _ = st' := congrArg Prod.fst (Option.some.inj h)
            constructor
            · simp only [List.map_append]
              rw [List.nodup_append]
              refine ⟨hi.1, hn1, fun u hu hu2 => ?_⟩
              exact (hn2 u hu2).2 (hi.2 u hu)
            · intro u hu
              simp only [List.map_append, List.mem_append] at hu
              rcases hu with hu | hu
              · exact hn3 u (hi.2 u hu)
              · exact (hn2 u hu).1
          · refine ih { st with seen := seen', fetched := st.fetched + 1 } st' got
              ⟨hi.1, fun u hu => ?_⟩ h
            exact hn3 u (hi.2 u hu)

/-- The page loop preserves the invariant. -/
theorem sessLoop_inv (fetch : Str → Str) (sid : Str) :
    ∀ (fuel page streak : Nat) (st st' : MainState),
      MainInv st → sessLoop fetch sid page streak fuel st = some st' →
      MainInv st' := by
  intro fuel
  induction fuel with
  | zero =>
    intro page streak st st' hi h
    obtain rfl : st = st' := Option.some.inj h
    exact hi
  | succ f ih =>
    intro page streak st st' hi h
    simp only [sessLoop] at h
    split at h
    · split at h
      · exact Option.noConfusion h
      · next st1 got hpr =>
        exact ih _ _ _ _ (tryUrls_inv fetch _ st st1 got hi hpr) h
    · obtain rfl : st = st' := Option.some.inj h
      exact hi

/-- C1 (amended): in the MAIN scraper a completed session's records
carry pairwise-distinct canonical URLs (the `seen_paths` guard drops a
tile whose canonical URL was already taken, keeping the first record).
The optimized scraper, by contrast, dedups by the raw absolute URL
only, so two of its records can share a canonical URL (see the
counterexample). -/
theorem session_dedup (fetch : Str → Str) (sid : Str) (st : MainState)
    (h : scrape_by_store_id fetch sid = some st) :
    (st.items.map (·.product_url)).Nodup := by
  have hinv : MainInv ⟨[], [], 0⟩ := ⟨by simp, by simp⟩
  exact (sessLoop_inv fetch sid (MAX_PAGES_PER_STORE + 1) 1 0 _ st hinv h).1

/-- C1 witness: the all-failing session ends with distinct (no)
records. -/
theorem session_dedup_witness :
    (((⟨[], [], 42⟩ : MainState)).items.map (·.product_url)).Nodup :=
  session_dedup (fun _ => []) (ofS "1") ⟨[], [], 42⟩ (by decide)

/-- The page of the C1 counterexample: two listing anchors whose raw
URLs differ only in the query string. -/
def dupPage : Str :=
  ofS "<div><a href=\"/listing/1001\" title=\"Product One\">x</a><a href=\"/listing/1001?x=1\" title=\"Product One B\">y</a></div>"

/-- The fetch of the C1 counterexample: the first `pageNo` page returns
`dupPage`, everything else fails. -/
def dupFetch : Str → Str := fun u =>
  if u = ofS "https://www.kilimall.co.ke/store/JK?pageNo=1" then dupPage else []

/-- C1 counterexample: a completed optimized session whose two records
share one canonical URL — the raw-URL dedup does not collapse them. -/
theorem session_dedup_cex :
    (scrape_store_optimized dupFetch (ofS "/store/JK")).map
        (fun st => st.rows.map (fun r => canonical_product_url r.product_url))
      = some [some (ofS "https://www.kilimall.co.ke/listing/1001"),
              some (ofS "https://www.kilimall.co.ke/listing/1001")] := by decide


/-! ## Claim C7: the JSON envelope is transparent to the extractor -/

/-- `tokenize` of nothing is nothing, at any fuel. -/
theorem tokenize_nil : ∀ f, tokenize f [] = [] := by
  intro f
  cases f with
  | zero => rfl
  | succ f => rfl

/-- A chunk with no `<` tokenizes to one text token. -/
theorem tokenize_text (f : Nat) (c : Char) (t : Str)
    (h : ∀ x ∈ c :: t, x ≠ '<') : tokenize (f + 1) (c :: t) = [Tok.ttext (c :: t)] := by
  simp only [tokenize]
  rw [if_neg (h c (List.mem_cons_self _ _))]
  have htake : (c :: t).takeWhile (fun x => decide ¬(x = '<')) = c :: t := by
    apply takeWhile_eq_self_of_all
    intro x hx
    simpa using h x hx
  have hdrop : (c :: t).dropWhile (fun x => decide ¬(x = '<')) = [] := by
    have h2 := @dropWhile_append_all (fun x => decide ¬(x = '<')) (c :: t) []
      (by intro x hx; simpa using h x hx)
    simpa using h2
  simp only [htake, hdrop, tokenize_nil]

/-- A `<`-free input yields no product tiles: its document is one text
node, which no anchor selector matches. -/
theorem parse_tiles_no_lt (s : Str) (h : ∀ x ∈ s, x ≠ '<') :
    parse_product_tiles s = some [] := by
  cases s with
  | nil => decide
  | cons c t =>
    have htok := tokenize_text ((c :: t).length) c t h
    show parse_product_tiles (c :: t) = some []
    simp only [parse_product_tiles, parseDoc, htok]
    rfl

/-- If `strip` empties a string, every character is whitespace. -/
theorem all_space_of_strip_nil (s : Str) (hs : pyStrip s = []) :
    ∀ c ∈ s, pyIsSpace c := by
  intro c hc
  by_contra hns
  have h1 : c ∈ pyLstrip s := by
    unfold pyLstrip
    have hdecomp : s.takeWhile pyIsSpace ++ s.dropWhile pyIsSpace = s :=
      List.takeWhile_append_dropWhile pyIsSpace s
    rw [← hdecomp] at hc
    rcases List.mem_append.mp hc with h | h
    · exact absurd (List.mem_takeWhile_imp h) hns
    · exact h
  have h2 : c ∈ pyStrip s := by
    unfold pyStrip pyRstrip
    rw [List.mem_reverse]
    have hrc : c ∈ (pyLstrip s).reverse := List.mem_reverse.mpr h1
    have hdecomp : (pyLstrip s).reverse.takeWhile pyIsSpace ++
        (pyLstrip s).reverse.dropWhile pyIsSpace = (pyLstrip s).reverse :=
      List.takeWhile_append_dropWhile pyIsSpace _
    rw [← hdecomp] at hrc
    rcases List.mem_append.mp hrc with h | h
    · exact absurd (List.mem_takeWhile_imp h) hns
    · exact h
  rw [hs] at h2
  simp at h2

/-- Every character `json.dumps` emits for `c` is `c` itself or comes
from the escape alphabet. -/
def escAlphabet : Str := ofS "\\\"ntrbfu0123456789abcdef"

/-- A hex digit is in the escape alphabet. -/
theorem hexDigitL_mem (j : Nat) (hj : j < 16) : hexDigitL j ∈ escAlphabet := by
  interval_cases j <;> decide

/-- Both `hex4` output characters sit in the escape alphabet. -/
theorem hex4_mem (n : Nat) : ∀ x ∈ hex4 n, x ∈ escAlphabet := by
  intro x hx
  have h16 : ∀ m : Nat, m % 16 < 16 := fun m => Nat.mod_lt _ (by norm_num)
  simp only [hex4, List.mem_cons, List.not_mem_nil, or_false] at hx
  rcases hx with rfl | rfl | rfl | rfl
  · exact hexDigitL_mem _ (h16 _)
  · exact hexDigitL_mem _ (h16 _)
  · exact hexDigitL_mem _ (h16 _)
  · exact hexDigitL_mem _ (h16 _)

/-- Character-level escape soundness. -/
theorem encChar_mem (x c : Char) (hx : x ∈ encChar c) :
    x = c ∨ x ∈ escAlphabet := by
  simp only [encChar] at hx
  repeat' split at hx
  · right
    simp only [List.mem_cons, List.not_mem_nil, or_false] at hx
    rcases hx with rfl | rfl
    · decide
    · decide
  · right
    simp only [List.mem_cons, List.not_mem_nil, or_false] at hx
    rcases hx with rfl | rfl
    · decide
    · decide
  · right
    simp only [List.mem_cons, List.not_mem_nil, or_false] at hx
    rcases hx with rfl | rfl
    · decide
    · decide
  · right
    simp only [List.mem_cons, List.not_mem_nil, or_false] at hx
    rcases hx with rfl | rfl
    · decide
    · decide
  · right
    simp only [List.mem_cons, List.not_mem_nil, or_false] at hx
    rcases hx with rfl | rfl
    · decide
    · decide
  · right
    simp only [List.mem_cons, List.not_mem_nil, or_false] at hx
    rcases hx with rfl | rfl
    · decide
    · decide
  · right
    simp only [List.mem_cons, List.not_mem_nil, or_false] at hx
    rcases hx with rfl | rfl
    · decide
    · decide
  · right
    simp only [List.mem_cons] at hx
    rcases hx with rfl | rfl | hx
    · decide
    · decide
    · exact hex4_mem _ x hx
  · right
    simp only [List.mem_append, List.mem_cons] at hx
    rcases hx with (rfl | rfl | hx) | (rfl | rfl | hx)
    · decide
    · decide
    · exact hex4_mem _ x hx
    · decide
    · decide
    · exact hex4_mem _ x hx
  · left
    simpa using hx

/-- No `<` in the input, no `<` in its JSON-escaped form. -/
theorem encodeStr_no_lt (h : Str) (hh : ∀ c ∈ h, c ≠ '<') :
    ∀ x ∈ encodeStr h, x ≠ '<' := by
  intro x hx
  simp only [encodeStr, List.mem_flatten, List.mem_map] at hx
  obtain ⟨l, ⟨c, hc, rfl⟩, hxl⟩ := hx
  rcases encChar_mem x c hxl with rfl | hmem
  · exact hh x hc
  · intro he
    subst he
    exact absurd hmem (by decide)

/-- No `<` anywhere in the envelope of a `<`-free payload. -/
theorem envelope_no_lt (k h : Str)
    (hk : k ∈ [ofS "html", ofS "data", ofS "content", ofS "body"])
    (hh : ∀ c ∈ h, c ≠ '<') : ∀ x ∈ jsonDumps1 k h, x ≠ '<' := by
  intro x hx
  simp only [jsonDumps1, List.mem_cons, List.mem_append] at hx
  rcases hx with rfl | rfl | hx | rfl | rfl | rfl | rfl | hx | rfl | hx
  · decide
  · decide
  · simp only [List.mem_cons, List.not_mem_nil, or_false] at hk
    rcases hk with rfl | rfl | rfl | rfl
    · exact (by decide : ∀ y ∈ ofS "html", y ≠ '<') x hx
    · exact (by decide : ∀ y ∈ ofS "data", y ≠ '<') x hx
    · exact (by decide : ∀ y ∈ ofS "content", y ≠ '<') x hx
    · exact (by decide : ∀ y ∈ ofS "body", y ≠ '<') x hx
  · decide
  · decide
  · decide
  · decide
  · exact encodeStr_no_lt h hh x hx
  · decide
  · rcases hx with rfl | h0
    · decide
    · cases h0

/-- When the payload strips to nothing, `decode_html_from_json` keeps
the whole envelope. -/
theorem decode_envelope_blank (k h : Str)
    (hk : k ∈ [ofS "html", ofS "data", ofS "content", ofS "body"])
    (hs : pyStrip h = []) :
    decode_html_from_json (jsonDumps1 k h) = jsonDumps1 k h := by
  simp only [List.mem_cons, List.not_mem_nil, or_false] at hk
  have henc : encodeStr k = k := by
    rcases hk with rfl | rfl | rfl | rfl <;> decide
  have hload := json_loads_dumps1 k h henc
  have hlstrip : pyLstrip (jsonDumps1 k h) = jsonDumps1 k h := by
    simp only [pyLstrip, jsonDumps1]
    exact dropWhile_eq_self_of_head rfl (by decide)
  simp only [decode_html_from_json, hlstrip, hload]
  rw [if_pos (by simp [jsonDumps1])]
  rcases hk with rfl | rfl | rfl | rfl
  · have hne1 : (ofS "html" = ofS "data") = False := by decide
    have hne2 : (ofS "html" = ofS "content") = False := by decide
    have hne3 : (ofS "html" = ofS "body") = False := by decide
    have e : firstHtmlField [(ofS "html", JVal.jstr h)]
        [ofS "html", ofS "data", ofS "content", ofS "body"] = none := by
      simp [firstHtmlField, objGet, hs, hne1, hne2, hne3]
    rw [e]
  · have hne1 : (ofS "data" = ofS "html") = False := by decide
    have hne2 : (ofS "data" = ofS "content") = False := by decide
    have hne3 : (ofS "data" = ofS "body") = False := by decide
    have e : firstHtmlField [(ofS "data", JVal.jstr h)]
        [ofS "html", ofS "data", ofS "content", ofS "body"] = none := by
      simp [firstHtmlField, objGet, hs, hne1, hne2, hne3]
    rw [e]
  · have hne1 : (ofS "content" = ofS "html") = False := by decide
    have hne2 : (ofS "content" = ofS "data") = False := by decide
    have hne3 : (ofS "content" = ofS "body") = False := by decide
    have e : firstHtmlField [(ofS "content", JVal.jstr h)]
        [ofS "html", ofS "data", ofS "content", ofS "body"] = none := by
      simp [firstHtmlField, objGet, hs, hne1, hne2, hne3]
    rw [e]
  · have hne1 : (ofS "body" = ofS "html") = False := by decide
    have hne2 : (ofS "body" = ofS "data") = False := by decide
    have hne3 : (ofS "body" = ofS "content") = False := by decide
    have e : firstHtmlField [(ofS "body", JVal.jstr h)]
        [ofS "html", ofS "data", ofS "content", ofS "body"] = none := by
      simp [firstHtmlField, objGet, hs, hne1, hne2, hne3]
    rw [e]

/-- C7: for every payload `h` and every recognized envelope key,
extracting tiles from `json.dumps({key: h})` equals extracting tiles
from `h` directly: a non-blank payload is unwrapped verbatim, and a
blank payload leaves the `<`-free envelope, which parses to no tiles,
exactly like the blank payload itself. -/
theorem envelope_transparent (h k : Str)
    (hk : k ∈ [ofS "html", ofS "data", ofS "content", ofS "body"]) :
    parse_product_tiles (decode_html_from_json (jsonDumps1 k h))
      = parse_product_tiles h := by
  by_cases hs : pyStrip h = []
  · have hws := all_space_of_strip_nil h hs
    have hh : ∀ c ∈ h, c ≠ '<' := by
      intro c hc he
      subst he
      exact absurd (hws _ hc) (by decide)
    rw [decode_envelope_blank k h hk hs,
      parse_tiles_no_lt _ (envelope_no_lt k h hk hh), parse_tiles_no_lt h hh]
  · rw [decode_envelope k h hk hs]

/-- C7 witness: a concrete envelope and its payload extract the same
single tile. -/
theorem envelope_transparent_witness :
    parse_product_tiles (decode_html_from_json (jsonDumps1 (ofS "data")
        (ofS "<a href=\"/listing/5\" title=\"Wonder Gadget\">KSh 10</a>")))
      = parse_product_tiles
          (ofS "<a href=\"/listing/5\" title=\"Wonder Gadget\">KSh 10</a>") :=
  envelope_transparent (ofS "<a href=\"/listing/5\" title=\"Wonder Gadget\">KSh 10</a>")
    (ofS "data") (by decide)


/-! ## Claim C3: novelty-gated exhaustion, revisited for both loops -/

/-- Deduplication never lengthens a list. -/
theorem dedupAux_length_le {α : Type} [DecidableEq α] :
    ∀ (l seen : List α), (dedupAux l seen).length ≤ l.length := by
  intro l
  induction l with
  | nil => intro seen; simp [dedupAux]
  | cons x t ih =>
    intro seen
    simp only [dedupAux]
    split
    · exact Nat.le_succ_of_le (ih seen)
    · simpa using Nat.succ_le_succ (ih (x :: seen))

/-- One page tries at most 14 candidate URLs. -/
theorem subpage_candidates_len (sid : Str) (page : Nat) :
    (subpage_candidates sid page).length ≤ 14 := by
  simp only [subpage_candidates, dedupL]
  refine le_trans (dedupAux_length_le _ _) ?_
  split
  · simp [List.flatMap_cons, List.flatMap_nil, subpageVariants]
  · simp [List.flatMap_cons, List.flatMap_nil, subpageVariants]

/-- A batch whose every canonical URL is already seen survives the
batch pass with nothing new and an unchanged seen-set. -/
theorem procBatch_allseen :
    ∀ (batch : List Tile) (seen : List Str) (p : List Tile × List Str),
      (∀ it ∈ batch, ∀ c, canonical_product_url it.product_url = some c →
        c ∈ seen) →
      procBatch seen batch = some p → p = ([], seen) := by
  intro batch
  induction batch with
  | nil =>
    intro seen p _ h
    simp only [procBatch] at h
    exact (Option.some.inj h).symm
  | cons it rest ih =>
    intro seen p hall h
    simp only [procBatch] at h
    split at h
    · exact Option.noConfusion h
    · next canon hcanon =>
      have hmem : canon ∈ seen := hall it (List.mem_cons_self _ _) canon hcanon
      rw [if_pos (by simpa using hmem)] at h
      exact ih seen p (fun jt hjt => hall jt (List.mem_cons_of_mem _ hjt)) h

/-- When every candidate page yields only canonically-seen tiles, the
whole candidate loop reports `got_new = false`, leaves items and the
seen-set unchanged, and fetches at most once per candidate. -/
theorem tryUrls_unproductive (fetch : Str → Str) :
    ∀ (urls : List Str) (st st' : MainState) (got : Bool),
      (∀ (u : Str) (batch : List Tile),
        parse_product_tiles (decode_html_from_json (fetch u)) = some batch →
        ∀ it ∈ batch, ∀ c, canonical_product_url it.product_url = some c →
          c ∈ st.seen) →
      tryUrls fetch urls st = some (st', got) →
      got = false ∧ st'.items = st.items ∧ st'.seen = st.seen ∧
        st'.fetched ≤ st.fetched + urls.length := by
  intro urls
  induction urls with
  | nil =>
    intro st st' got hyp h
    simp only [tryUrls] at h
    obtain rfl : st = st' := congrArg Prod.fst (Option.some.inj h)
    obtain rfl : (false : Bool) = got := congrArg Prod.snd (Option.some.inj h)
    exact ⟨rfl, rfl, rfl, by simp⟩
  | cons u us ih =>
    intro st st' got hyp h
    simp only [tryUrls] at h
    split at h
    · obtain ⟨h1, h2, h3, h4⟩ :=
        ih { st with fetched := st.fetched + 1 } st' got
          (fun v b hb it hit c hc => hyp v b hb it hit c hc) h
      have h4' : st'.fetched ≤ st.fetched + 1 + us.length := h4
      exact ⟨h1, h2, h3, by simp only [List.length_cons]; omega⟩
    · split at h
      · exact Option.noConfusion h
      · next batch hb =>
        split at h
        · exact Option.noConfusion h
        · next new seen' hpb =>
          have hps : (new, seen') = ([], st.seen) :=
            procBatch_allseen batch st.seen (new, seen') (hyp u batch hb) hpb
          obtain rfl : new = [] := congrArg Prod.fst hps
          obtain rfl : seen' = st.seen := congrArg Prod.snd hps
          rw [if_neg (by simp)] at h
          obtain ⟨h1, h2, h3, h4⟩ :=
            ih { st with seen := st.seen, fetched := st.fetched + 1 } st' got
              (fun v b hbb it hit c hc => hyp v b hbb it hit c hc) h
          have h4' : st'.fetched ≤ st.fetched + 1 + us.length := h4
          exact ⟨h1, h2, h3, by simp only [List.length_cons]; omega⟩

/-- When every page of the remaining session yields only
canonically-seen tiles, the session collects nothing more and ends
within the consecutive-empty-page threshold: at most
`(MAX_EMPTY_PAGES - streak) * 14` further fetches happen. -/
theorem sessLoop_unproductive (fetch : Str → Str) (sid : Str) :
    ∀ (fuel page streak : Nat) (st st' : MainState),
      (∀ (u : Str) (batch : List Tile),
        parse_product_tiles (decode_html_from_json (fetch u)) = some batch →
        ∀ it ∈ batch, ∀ c, canonical_product_url it.product_url = some c →
          c ∈ st.seen) →
      sessLoop fetch sid page streak fuel st = some st' →
      st'.items = st.items ∧
        st'.fetched ≤ st.fetched + (MAX_EMPTY_PAGES - streak) * 14 := by
  intro fuel
  induction fuel with
  | zero =>
    intro page streak st st' _ h
    obtain rfl : st = st' := Option.some.inj h
    exact ⟨rfl, by omega⟩
  | succ f ih =>
    intro page streak st st' hyp h
    simp only [sessLoop] at h
    split at h
    · next hcond =>
      split at h
      · exact Option.noConfusion h
      · next st1 got hpr =>
        obtain ⟨hg, hitems, hseen, hfetch⟩ :=
          tryUrls_unproductive fetch _ st st1 got hyp hpr
        subst hg
        rw [if_neg (by simp)] at h
        have hyp1 : ∀ (u : Str) (batch : List Tile),
            parse_product_tiles (decode_html_from_json (fetch u)) = some batch →
            ∀ it ∈ batch, ∀ c, canonical_product_url it.product_url = some c →
              c ∈ st1.seen := by
          intro v b hb it hit c hc
          rw [hseen]
          exact hyp v b hb it hit c hc
        obtain ⟨h1, h2⟩ := ih (page + 1) (streak + 1) st1 st' hyp1 h
        refine ⟨by rw [h1, hitems], ?_⟩
        have hcand := subpage_candidates_len sid page
        have hstreak : streak < MAX_EMPTY_PAGES := hcond.2
        have hm : MAX_EMPTY_PAGES = 3 := rfl
        rw [hm] at hstreak h2 ⊢
        omega
    · obtain rfl : st = st' := Option.some.inj h
      exact ⟨rfl, by omega⟩

/-- C3 (amended): exhaustion is novelty-gated in both scrapers, but
each one measures novelty by its own dedup key, and they differ.  Main
scraper: when every fetched candidate page yields only tiles whose
CANONICAL URL is already in `seen_paths`, the session adds no records
and ends within the `MAX_EMPTY_PAGES` (= 3) consecutive-empty-page
threshold, issuing at most 14 candidate fetches per remaining page and
none afterwards.  Optimized scraper: the `break` is gated on RAW
absolute-URL novelty, not canonical novelty — a non-first page whose
products are all raw-seen stops the strategy after that single
observing fetch, but a page yielding only already-seen canonical URLs
under fresh raw URLs counts as productive and the strategy keeps
fetching its whole budget (see the counterexample). -/
theorem novelty_gated_exhaustion :
    (∀ (fetch : Str → Str) (sid : Str) (fuel page streak : Nat)
        (st st' : MainState),
      (∀ (u : Str) (batch : List Tile),
        parse_product_tiles (decode_html_from_json (fetch u)) = some batch →
        ∀ it ∈ batch, ∀ c, canonical_product_url it.product_url = some c →
          c ∈ st.seen) →
      sessLoop fetch sid page streak fuel st = some st' →
      st'.items = st.items ∧
        st'.fetched ≤ st.fetched + (MAX_EMPTY_PAGES - streak) * 14) ∧
    (∀ (fetch : Str → Str) (storeUrl : Str) (pat : Nat → Str) (first v : Nat)
        (vs : List Nat) (st : OState) (ps : List OptRecord), v ≠ first →
      parse_products (fetch (storeUrl ++ pat v)) = some ps →
      (∀ p ∈ ps, p.product_url ∈ st.all) →
      valuesLoop fetch storeUrl pat first (v :: vs) st
        = some { st with fetched := st.fetched + 1 }) :=
  ⟨fun fetch sid fuel page streak st st' hyp h =>
      sessLoop_unproductive fetch sid fuel page streak st st' hyp h,
    fun fetch storeUrl pat first v vs st ps hv hp hs =>
      valuesLoop_rawseen_stop fetch storeUrl pat first v vs st ps hv hp hs⟩

/-- C3 witness: both halves at concrete inputs — a one-page all-failing
session fetches its 14 candidates and keeps nothing, and a concrete
raw-unproductive second page stops a strategy after one more fetch. -/
theorem novelty_gated_exhaustion_witness :
    ((⟨[], [], 14⟩ : MainState).items = (⟨[], [], 0⟩ : MainState).items ∧
      (⟨[], [], 14⟩ : MainState).fetched ≤ (⟨[], [], 0⟩ : MainState).fetched +
        (MAX_EMPTY_PAGES - 0) * 14) ∧
    valuesLoop (fun _ => []) (ofS "s") (fun _ => []) 1 [2, 3, 4]
        ⟨[ofS "u"], [], 5⟩ = some ⟨[ofS "u"], [], 6⟩ :=
  ⟨novelty_gated_exhaustion.1 (fun _ => []) (ofS "1") 1 1 0 ⟨[], [], 0⟩
      ⟨[], [], 14⟩
      (by
        intro u batch hb it hit c hc
        have he : parse_product_tiles (decode_html_from_json ([] : Str))
            = some [] := by decide
        rw [he] at hb
        obtain rfl : ([] : List Tile) = batch := Option.some.inj hb
        simp at hit)
      (by decide),
    novelty_gated_exhaustion.2 (fun _ => []) (ofS "s") (fun _ => []) 1 2 [3, 4]
      ⟨[ofS "u"], [], 5⟩ [] (by decide) (by decide) (by simp)⟩

/-- The counterexample page for value `v`: one anchor whose raw URL
varies with `v` but whose canonical URL never does. -/
def canonSeenPage (v : Nat) : Str :=
  ofS "<a href=\"/listing/1001?x=" ++ natStr v ++
    ofS "\" title=\"Product One\">x</a>"

/-- A fetch serving `canonSeenPage v` for the four `pageNo` URLs. -/
def canonSeenFetch : Str → Str := fun u =>
  if u = ofS "https://www.kilimall.co.ke/store/JK?pageNo=1" then canonSeenPage 1
  else if u = ofS "https://www.kilimall.co.ke/store/JK?pageNo=2" then canonSeenPage 2
  else if u = ofS "https://www.kilimall.co.ke/store/JK?pageNo=3" then canonSeenPage 3
  else if u = ofS "https://www.kilimall.co.ke/store/JK?pageNo=4" then canonSeenPage 4
  else []

/-- C3 counterexample: after the successful first page, every further
page of the strategy yields only the already-seen canonical URL
`…/listing/1001` (all four collected rows share that canonical URL),
yet the strategy issues all four budgeted fetches instead of stopping
within the threshold: the break tests raw-URL novelty, so
canonical-duplicate pages count as productive. -/
theorem novelty_gated_exhaustion_cex :
    (valuesLoop canonSeenFetch (ofS "https://www.kilimall.co.ke/store/JK")
        (fun v => ofS "?pageNo=" ++ natStr v) 1 [1, 2, 3, 4] ⟨[], [], 0⟩).map
        (fun st => (st.fetched,
          st.rows.map (fun r => canonical_product_url r.product_url)))
      = some (4, [some (ofS "https://www.kilimall.co.ke/listing/1001"),
          some (ofS "https://www.kilimall.co.ke/listing/1001"),
          some (ofS "https://www.kilimall.co.ke/listing/1001"),
          some (ofS "https://www.kilimall.co.ke/listing/1001")]) := by decide


end Jakan
